import Mathlib

/-!
Shallow embedding of the expense-splitter balance engine from
`src/components/BalanceView.tsx`: the balance calculator
(`calculateBalances`) and the debt simplifier (`simplifyDebts`),
together with the data model they operate on.

Monetary values are embedded as exact rationals (`ℚ`).  The JS balance
object (string-keyed, insertion ordered) is embedded as an association
list whose key order is the JS object insertion order; `Object.entries`
enumeration is list order.
-/

namespace ExpenseSplitter

/-- One participant's balance record: `{ paid, owes, balance }`. -/
structure Balance where
  paid : ℚ
  owes : ℚ
  balance : ℚ
  deriving DecidableEq, Repr

/-- `splitType: 'equal' | 'custom'` from the `Expense` type. -/
inductive SplitType where
  | equal
  | custom
  deriving DecidableEq, Repr

/-- An expense record (`Expense` from `src/types`): `amount`, `paidBy`,
`splitType`, `splitBetween`, and the optional `customAmounts` object
(embedded as an association list). -/
structure Expense where
  amount : ℚ
  paidBy : String
  splitType : SplitType
  splitBetween : List String
  customAmounts : Option (List (String × ℚ))
  deriving DecidableEq, Repr

/-- A settlement transfer (`SimplifiedDebt` from `src/types`). -/
structure SimplifiedDebt where
  «from» : String
  «to» : String
  amount : ℚ
  deriving DecidableEq, Repr

/-- The tolerance constant `0.01` used throughout `BalanceView.tsx`. -/
def eps : ℚ := 1 / 100

/-- Lookup in a string-keyed association list (JS object property read). -/
def lookupBal : List (String × Balance) → String → Option Balance
  | [], _ => none
  | q :: bs, p => if q.1 = p then some q.2 else lookupBal bs p

/-- Lookup in `customAmounts` (JS object property read; `none` is
`undefined`). -/
def lookupShare : List (String × ℚ) → String → Option ℚ
  | [], _ => none
  | q :: l, p => if q.1 = p then some q.2 else lookupShare l p

/-- `balances[p] = f(balances[p])` guarded by `if (balances[p])`: entries
with key `p` are rewritten, and a missing key leaves the list unchanged
(which is exactly the guard's effect). -/
def updEntry (bs : List (String × Balance)) (p : String) (f : Balance → Balance) :
    List (String × Balance) :=
  bs.map (fun q => if q.1 = p then (q.1, f q.2) else q)

/-- `if (balances[p]) balances[p].paid += x`. -/
def addPaid (bs : List (String × Balance)) (p : String) (x : ℚ) :
    List (String × Balance) :=
  updEntry bs p (fun b => { b with paid := b.paid + x })

/-- `if (balances[p]) balances[p].owes += x`. -/
def addOwes (bs : List (String × Balance)) (p : String) (x : ℚ) :
    List (String × Balance) :=
  updEntry bs p (fun b => { b with owes := b.owes + x })

/-- `people.forEach(person => { balances[person] = {paid:0, owes:0, balance:0} })`.
A JS object keeps the insertion position of a repeated key, and re-assigning
the same all-zero record is the identity, so a repeated name is skipped. -/
def initBalances (people : List String) : List (String × Balance) :=
  people.foldl
    (fun acc p => if acc.any (fun q => q.1 == p) then acc else acc ++ [(p, ⟨0, 0, 0⟩)])
    []

/-- The body of `expenses.forEach(expense => ...)` in `calculateBalances`:
credit the payer, then increment each sharer's `owes` according to the
split mode.  In `equal` mode the per-person share divides by the full
`splitBetween.length` (for the empty list ℚ division by zero gives `0` and
the fold over `[]` adds nothing, matching the JS code where the `forEach`
over `[]` never uses the `Infinity` per-person value). -/
def applyExpense (bs : List (String × Balance)) (e : Expense) :
    List (String × Balance) :=
  let bs1 := addPaid bs e.paidBy e.amount
  match e.splitType with
  | .equal =>
      let perPerson := e.amount / (e.splitBetween.length : ℚ)
      e.splitBetween.foldl (fun acc p => addOwes acc p perPerson) bs1
  | .custom =>
      match e.customAmounts with
      | some ca =>
          e.splitBetween.foldl
            (fun acc p => addOwes acc p ((lookupShare ca p).getD 0)) bs1
      | none => bs1

/-- `calculateBalances` from `BalanceView.tsx`: initialize a zero entry per
person, fold every expense, then set `balance = paid - owes` on every
entry. -/
def calculateBalances (people : List String) (expenses : List Expense) :
    List (String × Balance) :=
  ((expenses.foldl applyExpense (initBalances people)).map
    (fun q => (q.1, { q.2 with balance := q.2.paid - q.2.owes })))

/-- The creditor list: entries with `balance > 0.01`, carrying the balance. -/
def creditorsOf (bs : List (String × Balance)) : List (String × ℚ) :=
  bs.filterMap (fun q => if q.2.balance > eps then some (q.1, q.2.balance) else none)

/-- The debtor list: entries with `balance < -0.01`, carrying the negated
balance. -/
def debtorsOf (bs : List (String × Balance)) : List (String × ℚ) :=
  bs.filterMap (fun q => if q.2.balance < -eps then some (q.1, -q.2.balance) else none)

/-- Insert into a descending-sorted list, after existing elements of equal
amount (the stable placement of `Array.prototype.sort` with comparator
`(a, b) => b.amount - a.amount`). -/
def insertDesc (x : String × ℚ) : List (String × ℚ) → List (String × ℚ)
  | [] => [x]
  | y :: ys => if x.2 ≤ y.2 then y :: insertDesc x ys else x :: y :: ys

/-- Stable sort, descending by amount (`sort((a, b) => b.amount - a.amount)`;
ES2019 `Array.prototype.sort` is stable). -/
def sortDesc (l : List (String × ℚ)) : List (String × ℚ) :=
  l.foldl (fun acc x => insertDesc x acc) []

/-- The `while (i < creditors.length && j < debtors.length)` loop of
`simplifyDebts`, with the two cursors embedded as consuming the heads of
the two lists (only the elements at the cursors are ever read or written).
`fuel` bounds the number of iterations; `creditors.length + debtors.length`
fuel is always enough because every iteration drops at least one head (the
side achieving the `min` falls to a remainder of `0 < 0.01`).  The final
`else` branch is unreachable for the same reason. -/
def settleGo : Nat → List (String × ℚ) → List (String × ℚ) → List SimplifiedDebt
  | 0, _, _ => []
  | _ + 1, [], _ => []
  | _ + 1, _ :: _, [] => []
  | n + 1, c :: cs, d :: ds =>
      let amount := min c.2 d.2
      let rest :=
        if c.2 - amount < eps then
          if d.2 - amount < eps then settleGo n cs ds
          else settleGo n cs ((d.1, d.2 - amount) :: ds)
        else
          if d.2 - amount < eps then settleGo n ((c.1, c.2 - amount) :: cs) ds
          else []
      if amount > eps then ⟨d.1, c.1, amount⟩ :: rest else rest

/-- `simplifyDebts` from `BalanceView.tsx`, parameterized by the balance
map it reads (in the source the function recomputes `calculateBalances()`
as its first line; this is the §4.2 contract `simplify(balances)`). -/
def simplifyDebts (balances : List (String × Balance)) : List SimplifiedDebt :=
  let creditors := sortDesc (creditorsOf balances)
  let debtors := sortDesc (debtorsOf balances)
  settleGo (creditors.length + debtors.length) creditors debtors

/-! ### Derived quantities used by the verification -/

/-- What an expense adds to participant `q`'s `paid` field (the guarded
`balances[expense.paidBy].paid += expense.amount` seen from `q`'s entry). -/
def paidShare (e : Expense) (q : String) : ℚ :=
  if q = e.paidBy then e.amount else 0

/-- What an expense adds to participant `q`'s `owes` field: one per-person
share per occurrence of `q` in `splitBetween` (`equal` mode), or one looked-up
custom share per occurrence (`custom` mode with `customAmounts` present). -/
def owesShare (e : Expense) (q : String) : ℚ :=
  match e.splitType with
  | .equal => (e.splitBetween.count q : ℚ) * (e.amount / (e.splitBetween.length : ℚ))
  | .custom =>
      match e.customAmounts with
      | some ca => (e.splitBetween.count q : ℚ) * ((lookupShare ca q).getD 0)
      | none => 0

/-- The entries the partition of §4.2 step 1 leaves out: nets within the
±0.01 tolerance band. -/
def settledOf (bs : List (String × Balance)) : List (String × ℚ) :=
  bs.filterMap (fun q =>
    if -eps ≤ q.2.balance ∧ q.2.balance ≤ eps then some (q.1, q.2.balance) else none)

/-- Cumulative `paid` contribution of an expense list to participant `q`. -/
def paidTotal (es : List Expense) (q : String) : ℚ :=
  (es.map (fun e => paidShare e q)).sum

/-- Cumulative `owes` contribution of an expense list to participant `q`. -/
def owesTotal (es : List Expense) (q : String) : ℚ :=
  (es.map (fun e => owesShare e q)).sum

/-- Total of the `paid` fields of a balance map. -/
def sumPaid (bs : List (String × Balance)) : ℚ := (bs.map (fun q => q.2.paid)).sum

/-- Total of the `owes` fields of a balance map. -/
def sumOwes (bs : List (String × Balance)) : ℚ := (bs.map (fun q => q.2.owes)).sum

/-- Total of the `balance` fields of a balance map. -/
def sumBal (bs : List (String × Balance)) : ℚ := (bs.map (fun q => q.2.balance)).sum

/-- Total amount of a creditor/debtor list. -/
def sumAmt (l : List (String × ℚ)) : ℚ := (l.map (fun x => x.2)).sum

/-- Total amount of a transfer list. -/
def totalAmt (ts : List SimplifiedDebt) : ℚ := (ts.map (fun t => t.amount)).sum

/-- Total amount transferred to `q` in a transfer list. -/
def toAmt (q : String) (ts : List SimplifiedDebt) : ℚ :=
  (ts.map (fun t => if t.«to» = q then t.amount else 0)).sum

/-- Total amount transferred away from `q` in a transfer list. -/
def fromAmt (q : String) (ts : List SimplifiedDebt) : ℚ :=
  (ts.map (fun t => if t.«from» = q then t.amount else 0)).sum

/-- Applying one transfer to a running balance map exactly as claim P2's
words put it: subtract `amount` from the `from` participant's net and add it
to the `to` participant's net. -/
def applyTransferAsWritten (bs : List (String × Balance)) (t : SimplifiedDebt) :
    List (String × Balance) :=
  bs.map (fun q =>
    if q.1 = t.«from» then (q.1, { q.2 with balance := q.2.balance - t.amount })
    else if q.1 = t.«to» then (q.1, { q.2 with balance := q.2.balance + t.amount })
    else q)

/-- `applyTransferAsWritten` folded over a transfer list, in order. -/
def applyAllAsWritten (bs : List (String × Balance)) (ts : List SimplifiedDebt) :
    List (String × Balance) :=
  ts.foldl applyTransferAsWritten bs

/-- Applying one transfer in the settling direction (§3: a transfer "moves
both closer to zero net balance"): the paying `from` participant's net rises
by `amount`, the receiving `to` participant's net falls by `amount`. -/
def applyTransfer (bs : List (String × Balance)) (t : SimplifiedDebt) :
    List (String × Balance) :=
  bs.map (fun q =>
    if q.1 = t.«from» then (q.1, { q.2 with balance := q.2.balance + t.amount })
    else if q.1 = t.«to» then (q.1, { q.2 with balance := q.2.balance - t.amount })
    else q)

/-- `applyTransfer` folded over a transfer list, in order. -/
def applyAll (bs : List (String × Balance)) (ts : List SimplifiedDebt) :
    List (String × Balance) :=
  ts.foldl applyTransfer bs

/-- The keys of a balance map, in order (`Object.keys`). -/
def keysOf (bs : List (String × Balance)) : List String := bs.map (fun q => q.1)

end ExpenseSplitter

namespace ExpenseSplitter

/-! ### Association-list basics -/

theorem lookupBal_eq_none_iff (bs : List (String × Balance)) (p : String) :
    lookupBal bs p = none ↔ p ∉ keysOf bs := by
  induction bs with
  | nil => simp [lookupBal, keysOf]
  | cons b bs ih =>
    simp only [keysOf, List.map_cons, List.mem_cons, not_or] at ih ⊢
    by_cases hb : b.1 = p
    · subst hb
      simp [lookupBal]
    · have hpb : ¬ p = b.1 := fun h => hb h.symm
      simp [lookupBal, hb, ih, hpb]

theorem lookupBal_isSome_of_mem (bs : List (String × Balance)) (p : String)
    (h : p ∈ keysOf bs) : ∃ b, lookupBal bs p = some b := by
  cases hl : lookupBal bs p with
  | none => exact absurd ((lookupBal_eq_none_iff bs p).mp hl) (by simpa using h)
  | some b => exact ⟨b, rfl⟩

theorem keysOf_updEntry (bs : List (String × Balance)) (p : String)
    (f : Balance → Balance) : keysOf (updEntry bs p f) = keysOf bs := by
  induction bs with
  | nil => rfl
  | cons b bs ih =>
    by_cases hb : b.1 = p <;> simp [updEntry, keysOf, hb] <;>
      simpa [updEntry, keysOf] using ih

theorem lookupBal_updEntry (bs : List (String × Balance)) (p : String)
    (f : Balance → Balance) (q : String) :
    lookupBal (updEntry bs p f) q =
      if q = p then (lookupBal bs q).map f else lookupBal bs q := by
  induction bs with
  | nil => simp [updEntry, lookupBal]
  | cons b bs ih =>
    have h1 : updEntry (b :: bs) p f =
        (if b.1 = p then (b.1, f b.2) else b) :: updEntry bs p f := by
      simp only [updEntry, List.map_cons]
    rw [h1]
    by_cases hbq : b.1 = q
    · by_cases hbp : b.1 = p
      · have hqp : q = p := by rw [← hbq, hbp]
        simp [lookupBal, hbp, hbq, hqp]
      · have hqp : ¬ q = p := by rw [← hbq]; exact hbp
        simp [lookupBal, hbp, hbq, hqp]
    · by_cases hbp : b.1 = p
      · have hqp : ¬ q = p := fun h => hbq (by rw [hbp, h])
        have hpq : ¬ p = q := fun h => hqp h.symm
        simp [lookupBal, hbp, hbq, hqp, hpq, ih]
      · simp [lookupBal, hbp, hbq, ih]

theorem lookupBal_addPaid (bs : List (String × Balance)) (p : String) (x : ℚ)
    (q : String) :
    lookupBal (addPaid bs p x) q =
      if q = p then (lookupBal bs q).map (fun b => { b with paid := b.paid + x })
      else lookupBal bs q := by
  simp [addPaid, lookupBal_updEntry]

theorem lookupBal_addOwes (bs : List (String × Balance)) (p : String) (x : ℚ)
    (q : String) :
    lookupBal (addOwes bs p x) q =
      if q = p then (lookupBal bs q).map (fun b => { b with owes := b.owes + x })
      else lookupBal bs q := by
  simp [addOwes, lookupBal_updEntry]

theorem any_key_eq (acc : List (String × Balance)) (p : String) :
    (acc.any (fun q => q.1 == p)) = true ↔ p ∈ keysOf acc := by
  simp only [List.any_eq_true, beq_iff_eq, keysOf, List.mem_map]

theorem lookupBal_all_zero (acc : List (String × Balance)) (p : String)
    (hz : ∀ x ∈ acc, x.2 = ⟨0, 0, 0⟩) (hp : p ∈ keysOf acc) :
    lookupBal acc p = some ⟨0, 0, 0⟩ := by
  induction acc with
  | nil => simp [keysOf] at hp
  | cons b bs ih =>
    by_cases hb : b.1 = p
    · simp [lookupBal, hb, hz b (by simp)]
    · have hp' : p ∈ keysOf bs := by
        simp only [keysOf, List.map_cons, List.mem_cons] at hp
        exact hp.resolve_left (fun h => hb h.symm)
      simp [lookupBal, hb, ih (fun x hx => hz x (by simp [hx])) hp']

theorem initBalances_lookup (people : List String) (p : String) :
    lookupBal (initBalances people) p =
      if p ∈ people then some ⟨0, 0, 0⟩ else none := by
  have main : ∀ (ps : List String) (acc : List (String × Balance)),
      (∀ x ∈ acc, x.2 = ⟨0, 0, 0⟩) →
      lookupBal
        (ps.foldl
          (fun acc p =>
            if acc.any (fun q => q.1 == p) then acc else acc ++ [(p, ⟨0, 0, 0⟩)]) acc) p =
        if p ∈ ps ∨ p ∈ keysOf acc then some ⟨0, 0, 0⟩ else none := by
    intro ps
    induction ps with
    | nil =>
      intro acc hz
      by_cases hp : p ∈ keysOf acc
      · simp [List.foldl_nil, hp, lookupBal_all_zero acc p hz hp]
      · simp [List.foldl_nil, hp, (lookupBal_eq_none_iff acc p).mpr hp]
    | cons a ps ih =>
      intro acc hz
      simp only [List.foldl_cons]
      by_cases ha : (acc.any (fun q => q.1 == a)) = true
      · rw [if_pos ha, ih acc hz]
        have hak : a ∈ keysOf acc := (any_key_eq acc a).mp ha
        by_cases hpa : p = a
        · subst hpa
          simp [hak]
        · simp [List.mem_cons, hpa]
      · have hz' : ∀ x ∈ acc ++ [(a, (⟨0, 0, 0⟩ : Balance))], x.2 = (⟨0, 0, 0⟩ : Balance) := by
          intro x hx
          rcases List.mem_append.mp hx with h | h
          · exact hz x h
          · rw [List.mem_singleton.mp h]
        rw [if_neg ha, ih _ hz']
        have hk : keysOf (acc ++ [(a, (⟨0, 0, 0⟩ : Balance))]) = keysOf acc ++ [a] := by
          simp [keysOf]
        by_cases hpa : p = a
        · subst hpa
          simp [hk]
        · simp [hk, List.mem_cons, hpa]
  rw [initBalances, main people [] (by intro x hx; simp at hx)]
  simp [keysOf]

theorem initBalances_keys (people : List String) (hnd : people.Nodup) :
    keysOf (initBalances people) = people := by
  have main : ∀ (ps : List String) (acc : List (String × Balance)),
      (keysOf acc ++ ps).Nodup →
      keysOf
        (ps.foldl
          (fun acc p =>
            if acc.any (fun q => q.1 == p) then acc else acc ++ [(p, ⟨0, 0, 0⟩)]) acc) =
        keysOf acc ++ ps := by
    intro ps
    induction ps with
    | nil => intro acc _; simp
    | cons a ps ih =>
      intro acc hnd
      have hak : a ∉ keysOf acc := by
        rcases List.nodup_append.mp hnd with ⟨-, -, hdisj⟩
        intro h
        exact hdisj h (by simp)
      simp only [List.foldl_cons]
      rw [if_neg (fun h => hak ((any_key_eq acc a).mp h))]
      have hk : keysOf (acc ++ [(a, (⟨0, 0, 0⟩ : Balance))]) = keysOf acc ++ [a] := by
        simp [keysOf]
      rw [ih _ (by simpa [hk, List.append_assoc] using hnd), hk, List.append_assoc]
      rfl
  simpa [keysOf] using main people [] (by simpa [keysOf] using hnd)

/-! ### Per-entry characterization of the balance calculator -/

theorem keysOf_addPaid (bs : List (String × Balance)) (p : String) (x : ℚ) :
    keysOf (addPaid bs p x) = keysOf bs :=
  keysOf_updEntry bs p _

theorem keysOf_addOwes (bs : List (String × Balance)) (p : String) (x : ℚ) :
    keysOf (addOwes bs p x) = keysOf bs :=
  keysOf_updEntry bs p _

theorem keysOf_foldl_addOwes (l : List String) (g : String → ℚ)
    (bs : List (String × Balance)) :
    keysOf (l.foldl (fun acc p => addOwes acc p (g p)) bs) = keysOf bs := by
  induction l generalizing bs with
  | nil => rfl
  | cons p l ih => rw [List.foldl_cons, ih, keysOf_addOwes]

theorem lookupBal_foldl_addOwes (l : List String) (g : String → ℚ)
    (bs : List (String × Balance)) (q : String) :
    lookupBal (l.foldl (fun acc p => addOwes acc p (g p)) bs) q =
      (lookupBal bs q).map
        (fun b => { b with owes := b.owes + (l.count q : ℚ) * g q }) := by
  induction l generalizing bs with
  | nil =>
    cases h : lookupBal bs q <;> simp [h]
  | cons p l ih =>
    rw [List.foldl_cons, ih, lookupBal_addOwes]
    by_cases hqp : q = p
    · subst hqp
      cases h : lookupBal bs q <;>
        simp [h, List.count_cons, Option.map_map, Function.comp]
      push_cast
      ring
    · cases h : lookupBal bs q <;>
        simp [h, hqp, List.count_cons, fun hh : p = q => hqp hh.symm]

theorem keysOf_applyExpense (bs : List (String × Balance)) (e : Expense) :
    keysOf (applyExpense bs e) = keysOf bs := by
  rcases e with ⟨amount, paidBy, ty, split, ca⟩
  cases ty with
  | equal =>
    simp only [applyExpense]
    rw [show (fun acc p =>
          addOwes acc p (amount / ((split.length : ℚ)))) =
        (fun acc p => addOwes acc p ((fun _ => amount / ((split.length : ℚ))) p)) from rfl]
    rw [keysOf_foldl_addOwes, keysOf_addPaid]
  | custom =>
    cases ca with
    | none => simp only [applyExpense]; rw [keysOf_addPaid]
    | some ca =>
      simp only [applyExpense]
      rw [keysOf_foldl_addOwes, keysOf_addPaid]

theorem lookupBal_applyExpense (bs : List (String × Balance)) (e : Expense)
    (q : String) :
    lookupBal (applyExpense bs e) q =
      (lookupBal bs q).map
        (fun b => ⟨b.paid + paidShare e q, b.owes + owesShare e q, b.balance⟩) := by
  rcases e with ⟨amount, paidBy, ty, split, ca⟩
  have hpaid : ∀ r : String,
      lookupBal (addPaid bs paidBy amount) r =
        (lookupBal bs r).map
          (fun b => ⟨b.paid + paidShare ⟨amount, paidBy, ty, split, ca⟩ r, b.owes,
            b.balance⟩) := by
    intro r
    rw [lookupBal_addPaid]
    by_cases hr : r = paidBy
    · subst hr
      cases h : lookupBal bs r <;> simp [h, paidShare]
    · cases h : lookupBal bs r <;> simp [h, paidShare, hr]
  cases ty with
  | equal =>
    simp only [applyExpense]
    rw [show (fun acc p =>
          addOwes acc p (amount / ((split.length : ℚ)))) =
        (fun acc p => addOwes acc p ((fun _ => amount / ((split.length : ℚ))) p)) from rfl]
    rw [lookupBal_foldl_addOwes, hpaid q]
    cases h : lookupBal bs q <;> simp [h, owesShare, paidShare]
  | custom =>
    cases ca with
    | none =>
      simp only [applyExpense]
      rw [hpaid q]
      cases h : lookupBal bs q <;> simp [h, owesShare, paidShare]
    | some ca =>
      simp only [applyExpense]
      rw [lookupBal_foldl_addOwes, hpaid q]
      cases h : lookupBal bs q <;> simp [h, owesShare, paidShare]

theorem keysOf_foldl_applyExpense (es : List Expense) (bs : List (String × Balance)) :
    keysOf (es.foldl applyExpense bs) = keysOf bs := by
  induction es generalizing bs with
  | nil => rfl
  | cons e es ih => rw [List.foldl_cons, ih, keysOf_applyExpense]

theorem lookupBal_foldl_applyExpense (es : List Expense)
    (bs : List (String × Balance)) (q : String) :
    lookupBal (es.foldl applyExpense bs) q =
      (lookupBal bs q).map
        (fun b => ⟨b.paid + paidTotal es q, b.owes + owesTotal es q, b.balance⟩) := by
  induction es generalizing bs with
  | nil =>
    cases h : lookupBal bs q <;> simp [h, paidTotal, owesTotal]
  | cons e es ih =>
    rw [List.foldl_cons, ih, lookupBal_applyExpense]
    cases h : lookupBal bs q <;>
      simp [h, paidTotal, owesTotal, Option.map_map, Function.comp] <;> ring_nf
    constructor <;> ring

theorem lookupBal_mapVal (g : Balance → Balance) (bs : List (String × Balance))
    (p : String) :
    lookupBal (bs.map (fun q => (q.1, g q.2))) p = (lookupBal bs p).map g := by
  induction bs with
  | nil => simp [lookupBal]
  | cons b bs ih =>
    by_cases hb : b.1 = p <;> simp [lookupBal, hb, ih]

theorem keysOf_mapVal (g : Balance → Balance) (bs : List (String × Balance)) :
    keysOf (bs.map (fun q => (q.1, g q.2))) = keysOf bs := by
  simp [keysOf, List.map_map, Function.comp]

/-- The master per-participant characterization of `calculateBalances`. -/
theorem lookupBal_calculateBalances (people : List String) (es : List Expense)
    (q : String) :
    lookupBal (calculateBalances people es) q =
      if q ∈ people then
        some ⟨paidTotal es q, owesTotal es q, paidTotal es q - owesTotal es q⟩
      else none := by
  have hmap :
      (List.map
        (fun q : String × Balance => (q.1, { q.2 with balance := q.2.paid - q.2.owes }))
        (es.foldl applyExpense (initBalances people))) =
      (List.map
        (fun q : String × Balance =>
          (q.1, (fun b : Balance => (⟨b.paid, b.owes, b.paid - b.owes⟩ : Balance)) q.2))
        (es.foldl applyExpense (initBalances people))) := rfl
  rw [calculateBalances, hmap,
    lookupBal_mapVal (fun b : Balance => (⟨b.paid, b.owes, b.paid - b.owes⟩ : Balance)),
    lookupBal_foldl_applyExpense, initBalances_lookup]
  by_cases hq : q ∈ people <;> simp [hq]

/-! ### Sum bookkeeping -/

theorem sum_map_add {α : Type} (l : List α) (f g : α → ℚ) :
    (l.map (fun x => f x + g x)).sum = (l.map f).sum + (l.map g).sum := by
  induction l with
  | nil => simp
  | cons a l ih => simp [ih]; ring

theorem sum_map_sub {α : Type} (l : List α) (f g : α → ℚ) :
    (l.map (fun x => f x - g x)).sum = (l.map f).sum - (l.map g).sum := by
  induction l with
  | nil => simp
  | cons a l ih => simp [ih]; ring

theorem sum_if_single (ks : List String) (hnd : ks.Nodup) (a : String)
    (ha : a ∈ ks) (g : String → ℚ) :
    (ks.map (fun p => if p = a then g p else 0)).sum = g a := by
  induction ks with
  | nil => simp at ha
  | cons k ks ih =>
    by_cases hak : a = k
    · subst hak
      have hz : ∀ x ∈ ks.map (fun p => if p = a then g p else 0), x = 0 := by
        intro x hx
        rcases List.mem_map.mp hx with ⟨p, hp, rfl⟩
        rw [if_neg]
        intro hpa
        exact (List.nodup_cons.mp hnd).1 (hpa ▸ hp)
      rw [List.map_cons, List.sum_cons, if_pos rfl, List.sum_eq_zero hz, add_zero]
    · have ha' : a ∈ ks := (List.mem_cons.mp ha).resolve_left hak
      rw [List.map_cons, List.sum_cons, if_neg (fun h => hak h.symm),
        ih (List.nodup_cons.mp hnd).2 ha', zero_add]

theorem sum_count_mul (ks : List String) (hnd : ks.Nodup) (l : List String)
    (hl : ∀ q ∈ l, q ∈ ks) (g : String → ℚ) :
    (ks.map (fun p => (l.count p : ℚ) * g p)).sum = (l.map g).sum := by
  induction l with
  | nil => simp
  | cons a l ih =>
    have hsplit : ∀ p : String,
        ((a :: l).count p : ℚ) * g p =
          (l.count p : ℚ) * g p + (if p = a then g p else 0) := by
      intro p
      by_cases hpa : p = a
      · subst hpa
        simp [List.count_cons]
        ring
      · simp [List.count_cons, hpa, fun h : (p == a) = true => hpa (by simpa using h)]
    calc (ks.map (fun p => ((a :: l).count p : ℚ) * g p)).sum
        = (ks.map (fun p => (l.count p : ℚ) * g p + (if p = a then g p else 0))).sum := by
          exact congrArg List.sum (List.map_congr_left (fun p _ => hsplit p))
      _ = (ks.map (fun p => (l.count p : ℚ) * g p)).sum +
            (ks.map (fun p => if p = a then g p else 0)).sum := sum_map_add ks _ _
      _ = (l.map g).sum + g a := by
          rw [ih (fun q hq => hl q (by simp [hq])), sum_if_single ks hnd a (hl a (by simp)) g]
      _ = ((a :: l).map g).sum := by simp; ring

theorem paidTotal_cons (e : Expense) (es : List Expense) (q : String) :
    paidTotal (e :: es) q = paidShare e q + paidTotal es q := by
  simp [paidTotal]

theorem owesTotal_cons (e : Expense) (es : List Expense) (q : String) :
    owesTotal (e :: es) q = owesShare e q + owesTotal es q := by
  simp [owesTotal]

theorem paidTotal_append (es₁ es₂ : List Expense) (q : String) :
    paidTotal (es₁ ++ es₂) q = paidTotal es₁ q + paidTotal es₂ q := by
  simp [paidTotal]

theorem owesTotal_append (es₁ es₂ : List Expense) (q : String) :
    owesTotal (es₁ ++ es₂) q = owesTotal es₁ q + owesTotal es₂ q := by
  simp [owesTotal]

/-! ### List-level characterization of `calculateBalances` -/

theorem assoc_eq_of_lookup (bs : List (String × Balance)) (ks : List String)
    (v : String → Balance) (hk : keysOf bs = ks) (hnd : ks.Nodup)
    (hl : ∀ p ∈ ks, lookupBal bs p = some (v p)) :
    bs = ks.map (fun p => (p, v p)) := by
  induction bs generalizing ks with
  | nil =>
    rw [← hk]
    simp [keysOf]
  | cons b bs ih =>
    subst hk
    have hcons : keysOf (b :: bs) = b.1 :: keysOf bs := rfl
    have hnd' : (b.1 :: keysOf bs).Nodup := by rwa [hcons] at hnd
    have hbk : lookupBal (b :: bs) b.1 = some b.2 := by simp [lookupBal]
    have hv : b.2 = v b.1 := by
      have := hl b.1 (by rw [hcons]; exact List.mem_cons_self b.1 (keysOf bs))
      rw [hbk] at this
      exact Option.some.inj this
    have htail : bs = (keysOf bs).map (fun p => (p, v p)) := by
      refine ih (keysOf bs) rfl ((List.nodup_cons.mp hnd').2) ?_
      intro p hp
      have hpb : ¬ b.1 = p := by
        intro h
        exact (List.nodup_cons.mp hnd').1 (h ▸ hp)
      have := hl p (by rw [hcons]; exact List.mem_cons_of_mem _ hp)
      rwa [lookupBal, if_neg hpb] at this
    calc b :: bs = (b.1, b.2) :: bs := rfl
      _ = (b.1, v b.1) :: (keysOf bs).map (fun p => (p, v p)) := by rw [← hv, ← htail]
      _ = (keysOf (b :: bs)).map (fun p => (p, v p)) := by simp [keysOf]

theorem calculateBalances_as_mapVal (people : List String) (es : List Expense) :
    calculateBalances people es =
      (es.foldl applyExpense (initBalances people)).map
        (fun q =>
          (q.1, (fun b : Balance => (⟨b.paid, b.owes, b.paid - b.owes⟩ : Balance)) q.2)) :=
  rfl

theorem keysOf_calculateBalances (people : List String) (es : List Expense)
    (hnd : people.Nodup) : keysOf (calculateBalances people es) = people := by
  rw [calculateBalances_as_mapVal,
    keysOf_mapVal (fun b : Balance => (⟨b.paid, b.owes, b.paid - b.owes⟩ : Balance)),
    keysOf_foldl_applyExpense, initBalances_keys _ hnd]

/-- `calculateBalances` as an explicit roster-indexed table. -/
theorem calculateBalances_eq_map (people : List String) (es : List Expense)
    (hnd : people.Nodup) :
    calculateBalances people es =
      people.map (fun p =>
        (p, ⟨paidTotal es p, owesTotal es p, paidTotal es p - owesTotal es p⟩)) := by
  refine assoc_eq_of_lookup _ people _ (keysOf_calculateBalances people es hnd) hnd ?_
  intro p hp
  rw [lookupBal_calculateBalances, if_pos hp]

theorem foldl_addOwes_congr (l : List String) (g₁ g₂ : String → ℚ)
    (h : ∀ q ∈ l, g₁ q = g₂ q) (bs : List (String × Balance)) :
    l.foldl (fun acc q => addOwes acc q (g₁ q)) bs =
      l.foldl (fun acc q => addOwes acc q (g₂ q)) bs := by
  induction l generalizing bs with
  | nil => rfl
  | cons a l ih =>
    simp only [List.foldl_cons]
    rw [h a (by simp), ih (fun q hq => h q (by simp [hq]))]

/-! ### The calculator claims -/

/-- C5: for a roster of distinct names `calculateBalances` returns exactly one
entry per roster participant, in roster order, and no other entries; every
entry satisfies `balance = paid - owes`; and a participant appearing in no
expense as payer or sharer gets the entry `{paid := 0, owes := 0, balance := 0}`. -/
theorem claim_C5_result_shape (people : List String) (es : List Expense)
    (hnd : people.Nodup) :
    keysOf (calculateBalances people es) = people ∧
    (∀ x ∈ calculateBalances people es, x.2.balance = x.2.paid - x.2.owes) ∧
    (∀ p ∈ people, (∀ e ∈ es, e.paidBy ≠ p ∧ p ∉ e.splitBetween) →
      lookupBal (calculateBalances people es) p = some ⟨0, 0, 0⟩) := by
  refine ⟨keysOf_calculateBalances people es hnd, ?_, ?_⟩
  · intro x hx
    rw [calculateBalances_as_mapVal] at hx
    rcases List.mem_map.mp hx with ⟨q, _, rfl⟩
    rfl
  · intro p hp hact
    rw [lookupBal_calculateBalances, if_pos hp]
    have hpt : paidTotal es p = 0 := by
      simp only [paidTotal]
      apply List.sum_eq_zero
      intro x hx
      rcases List.mem_map.mp hx with ⟨e, he, rfl⟩
      have hne : ¬ p = e.paidBy := fun h => (hact e he).1 h.symm
      simp [paidShare, hne]
    have hot : owesTotal es p = 0 := by
      simp only [owesTotal]
      apply List.sum_eq_zero
      intro x hx
      rcases List.mem_map.mp hx with ⟨e, he, rfl⟩
      have hc : e.splitBetween.count p = 0 := List.count_eq_zero.mpr (hact e he).2
      rcases e with ⟨amount, paidBy, ty, split, ca⟩
      cases ty with
      | equal => simp_all [owesShare]
      | custom => cases ca <;> simp_all [owesShare]
    rw [hpt, hot]
    norm_num

/-- Witness for C5 at a concrete roster and expense list. -/
theorem claim_C5_result_shape_witness :
    (["Ann", "Bea"] : List String).Nodup ∧
    (keysOf (calculateBalances ["Ann", "Bea"] [⟨7, "Ann", .equal, ["Ann"], none⟩]) =
        ["Ann", "Bea"] ∧
      (∀ x ∈ calculateBalances ["Ann", "Bea"] [⟨7, "Ann", .equal, ["Ann"], none⟩],
        x.2.balance = x.2.paid - x.2.owes) ∧
      (∀ p ∈ (["Ann", "Bea"] : List String),
        (∀ e ∈ [(⟨7, "Ann", .equal, ["Ann"], none⟩ : Expense)],
          e.paidBy ≠ p ∧ p ∉ e.splitBetween) →
        lookupBal (calculateBalances ["Ann", "Bea"] [⟨7, "Ann", .equal, ["Ann"], none⟩]) p =
          some ⟨0, 0, 0⟩)) :=
  ⟨by decide, claim_C5_result_shape ["Ann", "Bea"] [⟨7, "Ann", .equal, ["Ann"], none⟩]
    (by decide)⟩

/-- C3: an `equal`-mode expense with an empty `splitBetween`, inserted anywhere
in the expense list, is harmless: the computation is total (no
division-by-zero fault), no participant's `owes` changes on account of the
expense, and the payer's `paid` still rises by `amount` when the payer is a
roster member (the lookup is `none` for both runs otherwise). -/
theorem claim_C3_zero_sharers (people : List String) (es₁ es₂ : List Expense)
    (e : Expense) (hty : e.splitType = .equal) (hsb : e.splitBetween = [])
    (p : String) :
    ((lookupBal (calculateBalances people (es₁ ++ e :: es₂)) p).map (fun b => b.owes) =
      (lookupBal (calculateBalances people (es₁ ++ es₂)) p).map (fun b => b.owes)) ∧
    ((lookupBal (calculateBalances people (es₁ ++ e :: es₂)) p).map (fun b => b.paid) =
      (lookupBal (calculateBalances people (es₁ ++ es₂)) p).map
        (fun b => if p = e.paidBy then b.paid + e.amount else b.paid)) := by
  have how : owesShare e p = 0 := by
    rcases e with ⟨amount, paidBy, ty, split, ca⟩
    subst hty
    subst hsb
    simp [owesShare]
  have hps : paidShare e p = if p = e.paidBy then e.amount else 0 := rfl
  rw [lookupBal_calculateBalances, lookupBal_calculateBalances]
  by_cases hp : p ∈ people
  · rw [if_pos hp, if_pos hp]
    constructor
    · simp [owesTotal_append, owesTotal_cons, how]
    · simp only [Option.map_some']
      rw [paidTotal_append, paidTotal_cons, hps]
      by_cases hpb : p = e.paidBy
      · rw [if_pos hpb, if_pos hpb, paidTotal_append]
        congr 1
        ring
      · rw [if_neg hpb, if_neg hpb, paidTotal_append]
        congr 1
        ring
  · rw [if_neg hp, if_neg hp]
    exact ⟨rfl, rfl⟩

/-- Witness for C3 at a concrete input. -/
theorem claim_C3_zero_sharers_witness :
    (⟨5, "Ann", .equal, [], none⟩ : Expense).splitType = .equal ∧
    (⟨5, "Ann", .equal, [], none⟩ : Expense).splitBetween = [] ∧
    (((lookupBal (calculateBalances ["Ann", "Bea"]
          ([] ++ (⟨5, "Ann", .equal, [], none⟩ : Expense) :: [])) "Ann").map
            (fun b => b.owes) =
        (lookupBal (calculateBalances ["Ann", "Bea"] ([] ++ [])) "Ann").map
          (fun b => b.owes)) ∧
      ((lookupBal (calculateBalances ["Ann", "Bea"]
          ([] ++ (⟨5, "Ann", .equal, [], none⟩ : Expense) :: [])) "Ann").map
            (fun b => b.paid) =
        (lookupBal (calculateBalances ["Ann", "Bea"] ([] ++ [])) "Ann").map
          (fun b =>
            if "Ann" = (⟨5, "Ann", .equal, [], none⟩ : Expense).paidBy then b.paid + 5
            else b.paid))) :=
  ⟨rfl, rfl,
    claim_C3_zero_sharers ["Ann", "Bea"] [] [] ⟨5, "Ann", .equal, [], none⟩ rfl rfl "Ann"⟩

/-- C6: stale references are tolerated silently, in both split modes.  A
`paidBy` outside the roster changes nobody's `paid`; the `owes` effect of
an `equal`-mode expense on any name is exactly
`count * (amount / splitBetween.length)` — the division is by the full
`splitBetween` length, unknown sharers included; the `owes` effect of a
`custom`-mode expense on any name is exactly the looked-up custom share per
occurrence, so a stale sharer's entry is attributed to nobody while every
roster member's own contribution still applies; and a name outside the
roster has no balance entry at all (lookup `none` on both runs, no error
raised). -/
theorem claim_C6_stale_refs (people : List String) (es₁ es₂ : List Expense)
    (e : Expense) (p : String) :
    (e.paidBy ∉ people →
      (lookupBal (calculateBalances people (es₁ ++ e :: es₂)) p).map (fun b => b.paid) =
        (lookupBal (calculateBalances people (es₁ ++ es₂)) p).map (fun b => b.paid)) ∧
    (e.splitType = .equal →
      (lookupBal (calculateBalances people (es₁ ++ e :: es₂)) p).map (fun b => b.owes) =
        (lookupBal (calculateBalances people (es₁ ++ es₂)) p).map
          (fun b => b.owes + (e.splitBetween.count p : ℚ) *
            (e.amount / (e.splitBetween.length : ℚ)))) ∧
    (∀ ca, e.splitType = .custom → e.customAmounts = some ca →
      (lookupBal (calculateBalances people (es₁ ++ e :: es₂)) p).map (fun b => b.owes) =
        (lookupBal (calculateBalances people (es₁ ++ es₂)) p).map
          (fun b => b.owes + (e.splitBetween.count p : ℚ) *
            ((lookupShare ca p).getD 0))) ∧
    (p ∉ people →
      lookupBal (calculateBalances people (es₁ ++ e :: es₂)) p = none ∧
      lookupBal (calculateBalances people (es₁ ++ es₂)) p = none) := by
  refine ⟨?_, ?_, ?_, ?_⟩
  · intro hpay
    rw [lookupBal_calculateBalances, lookupBal_calculateBalances]
    by_cases hp : p ∈ people
    · rw [if_pos hp, if_pos hp]
      have hps : paidShare e p = 0 := by
        rw [paidShare, if_neg]
        intro h
        exact hpay (h ▸ hp)
      simp only [Option.map_some']
      rw [paidTotal_append, paidTotal_cons, hps, paidTotal_append]
      congr 1
      ring
    · rw [if_neg hp, if_neg hp]
  · intro hty
    rw [lookupBal_calculateBalances, lookupBal_calculateBalances]
    by_cases hp : p ∈ people
    · rw [if_pos hp, if_pos hp]
      have hos : owesShare e p =
          (e.splitBetween.count p : ℚ) * (e.amount / (e.splitBetween.length : ℚ)) := by
        rcases e with ⟨amount, paidBy, ty, split, ca⟩
        subst hty
        simp [owesShare]
      simp only [Option.map_some']
      rw [owesTotal_append, owesTotal_cons, hos, owesTotal_append]
      congr 1
      ring
    · rw [if_neg hp, if_neg hp]
      rfl
  · intro ca hty hca
    rw [lookupBal_calculateBalances, lookupBal_calculateBalances]
    by_cases hp : p ∈ people
    · rw [if_pos hp, if_pos hp]
      have hos : owesShare e p =
          (e.splitBetween.count p : ℚ) * ((lookupShare ca p).getD 0) := by
        rcases e with ⟨amount, paidBy, ty, split, cam⟩
        subst hty
        subst hca
        simp [owesShare]
      simp only [Option.map_some']
      rw [owesTotal_append, owesTotal_cons, hos, owesTotal_append]
      congr 1
      ring
    · rw [if_neg hp, if_neg hp]
      rfl
  · intro hp
    rw [lookupBal_calculateBalances, lookupBal_calculateBalances, if_neg hp, if_neg hp]
    exact ⟨rfl, rfl⟩

/-- Witness for C6 at concrete inputs: roster `[Ann, Bea]`, stale name `Zed`
as payer and sharer, exercising the paid clause and the `equal` owed clause
on one expense, the `custom` owed clause on another, and the no-entry clause
at the stale name itself. -/
theorem claim_C6_stale_refs_witness :
    ("Zed" ∉ (["Ann", "Bea"] : List String)) ∧
    ((lookupBal (calculateBalances ["Ann", "Bea"]
        ([] ++ (⟨10, "Zed", .equal, ["Ann", "Zed"], none⟩ : Expense) :: [])) "Ann").map
          (fun b => b.paid) =
      (lookupBal (calculateBalances ["Ann", "Bea"] ([] ++ [])) "Ann").map
        (fun b => b.paid)) ∧
    ((lookupBal (calculateBalances ["Ann", "Bea"]
        ([] ++ (⟨10, "Zed", .equal, ["Ann", "Zed"], none⟩ : Expense) :: [])) "Ann").map
          (fun b => b.owes) =
      (lookupBal (calculateBalances ["Ann", "Bea"] ([] ++ [])) "Ann").map
        (fun b => b.owes +
          (((⟨10, "Zed", .equal, ["Ann", "Zed"], none⟩ : Expense).splitBetween.count
            "Ann" : ℚ)) *
          ((⟨10, "Zed", .equal, ["Ann", "Zed"], none⟩ : Expense).amount /
            (((⟨10, "Zed", .equal, ["Ann", "Zed"], none⟩ :
              Expense).splitBetween.length : ℚ))))) ∧
    ((lookupBal (calculateBalances ["Ann", "Bea"]
        ([] ++ (⟨10, "Zed", .custom, ["Ann", "Zed"],
          some [("Ann", 4), ("Zed", 6)]⟩ : Expense) :: [])) "Ann").map
          (fun b => b.owes) =
      (lookupBal (calculateBalances ["Ann", "Bea"] ([] ++ [])) "Ann").map
        (fun b => b.owes +
          (((⟨10, "Zed", .custom, ["Ann", "Zed"],
            some [("Ann", 4), ("Zed", 6)]⟩ : Expense).splitBetween.count "Ann" : ℚ)) *
          ((lookupShare [("Ann", 4), ("Zed", 6)] "Ann").getD 0))) ∧
    (lookupBal (calculateBalances ["Ann", "Bea"]
        ([] ++ (⟨10, "Zed", .custom, ["Ann", "Zed"],
          some [("Ann", 4), ("Zed", 6)]⟩ : Expense) :: [])) "Zed" = none ∧
      lookupBal (calculateBalances ["Ann", "Bea"] ([] ++ [])) "Zed" = none) :=
  ⟨by decide,
    (claim_C6_stale_refs ["Ann", "Bea"] [] []
      ⟨10, "Zed", .equal, ["Ann", "Zed"], none⟩ "Ann").1 (by decide),
    (claim_C6_stale_refs ["Ann", "Bea"] [] []
      ⟨10, "Zed", .equal, ["Ann", "Zed"], none⟩ "Ann").2.1 rfl,
    (claim_C6_stale_refs ["Ann", "Bea"] [] []
      ⟨10, "Zed", .custom, ["Ann", "Zed"], some [("Ann", 4), ("Zed", 6)]⟩ "Ann").2.2.1
      [("Ann", 4), ("Zed", 6)] rfl rfl,
    (claim_C6_stale_refs ["Ann", "Bea"] [] []
      ⟨10, "Zed", .custom, ["Ann", "Zed"], some [("Ann", 4), ("Zed", 6)]⟩ "Zed").2.2.2
      (by decide)⟩

/-- C7: custom splits.  Each occurrence of a name in `splitBetween` adds the
looked-up `customAmounts` entry when present and `0` when absent; and
`customAmounts` maps agreeing on every member of `splitBetween` (in
particular, maps differing only in entries for names outside `splitBetween`)
produce identical results, with no crash. -/
theorem claim_C7_custom_split (people : List String) (es₁ es₂ : List Expense)
    (e : Expense) (ca ca' : List (String × ℚ)) (hty : e.splitType = .custom)
    (hca : e.customAmounts = some ca)
    (hagree : ∀ q ∈ e.splitBetween, lookupShare ca q = lookupShare ca' q)
    (p : String) :
    ((lookupBal (calculateBalances people (es₁ ++ e :: es₂)) p).map (fun b => b.owes) =
      (lookupBal (calculateBalances people (es₁ ++ es₂)) p).map
        (fun b => b.owes + (e.splitBetween.count p : ℚ) * ((lookupShare ca p).getD 0))) ∧
    calculateBalances people (es₁ ++ { e with customAmounts := some ca' } :: es₂) =
      calculateBalances people (es₁ ++ e :: es₂) := by
  constructor
  · rw [lookupBal_calculateBalances, lookupBal_calculateBalances]
    by_cases hp : p ∈ people
    · rw [if_pos hp, if_pos hp]
      have hos : owesShare e p =
          (e.splitBetween.count p : ℚ) * ((lookupShare ca p).getD 0) := by
        rcases e with ⟨amount, paidBy, ty, split, cam⟩
        subst hty
        subst hca
        simp [owesShare]
      simp only [Option.map_some']
      rw [owesTotal_append, owesTotal_cons, hos, owesTotal_append]
      congr 1
      ring
    · rw [if_neg hp, if_neg hp]
      rfl
  · rw [calculateBalances, calculateBalances, List.foldl_append, List.foldl_append,
      List.foldl_cons, List.foldl_cons]
    congr 2
    rcases e with ⟨amount, paidBy, ty, split, cam⟩
    subst hty
    subst hca
    simp only [applyExpense]
    exact foldl_addOwes_congr split
      (fun q => (lookupShare ca' q).getD 0) (fun q => (lookupShare ca q).getD 0)
      (fun q hq => by
        show (lookupShare ca' q).getD 0 = (lookupShare ca q).getD 0
        rw [hagree q hq]) _

/-- Witness for C7 at a concrete input: an extra `customAmounts` entry for a
name outside `splitBetween` changes nothing. -/
theorem claim_C7_custom_split_witness :
    (⟨10, "Ann", .custom, ["Ann", "Bea"], some [("Ann", 4), ("Bea", 6)]⟩ :
        Expense).splitType = .custom ∧
    (∀ q ∈ (⟨10, "Ann", .custom, ["Ann", "Bea"], some [("Ann", 4), ("Bea", 6)]⟩ :
        Expense).splitBetween,
      lookupShare [("Ann", 4), ("Bea", 6)] q =
        lookupShare [("Ann", 4), ("Bea", 6), ("Zed", 99)] q) ∧
    (((lookupBal (calculateBalances ["Ann", "Bea"]
        ([] ++ (⟨10, "Ann", .custom, ["Ann", "Bea"], some [("Ann", 4), ("Bea", 6)]⟩ :
          Expense) :: [])) "Bea").map (fun b => b.owes) =
      (lookupBal (calculateBalances ["Ann", "Bea"] ([] ++ [])) "Bea").map
        (fun b => b.owes +
          (((⟨10, "Ann", .custom, ["Ann", "Bea"], some [("Ann", 4), ("Bea", 6)]⟩ :
            Expense).splitBetween.count "Bea" : ℚ) *
            ((lookupShare [("Ann", 4), ("Bea", 6)] "Bea").getD 0)))) ∧
    calculateBalances ["Ann", "Bea"]
        ([] ++ ({(⟨10, "Ann", .custom, ["Ann", "Bea"], some [("Ann", 4), ("Bea", 6)]⟩ :
          Expense) with customAmounts := some [("Ann", 4), ("Bea", 6), ("Zed", 99)]} :
            Expense) :: []) =
      calculateBalances ["Ann", "Bea"]
        ([] ++ (⟨10, "Ann", .custom, ["Ann", "Bea"], some [("Ann", 4), ("Bea", 6)]⟩ :
          Expense) :: [])) :=
  ⟨rfl, by simp [lookupShare],
    claim_C7_custom_split ["Ann", "Bea"] [] []
      ⟨10, "Ann", .custom, ["Ann", "Bea"], some [("Ann", 4), ("Bea", 6)]⟩
      [("Ann", 4), ("Bea", 6)] [("Ann", 4), ("Bea", 6), ("Zed", 99)]
      rfl rfl (by simp [lookupShare]) "Bea"⟩

/-! ### Conservation -/

theorem sum_map_const {α : Type} (l : List α) (c : ℚ) :
    (l.map (fun _ => c)).sum = (l.length : ℚ) * c := by
  induction l with
  | nil => simp
  | cons a l ih =>
    simp [ih]
    ring

theorem sum_paidShare (people : List String) (hnd : people.Nodup) (e : Expense)
    (hmem : e.paidBy ∈ people) :
    (people.map (fun p => paidShare e p)).sum = e.amount := by
  have h := sum_if_single people hnd e.paidBy hmem (fun _ => e.amount)
  simpa [paidShare] using h

theorem sum_owesShare (people : List String) (hnd : people.Nodup) (e : Expense)
    (hsub : ∀ q ∈ e.splitBetween, q ∈ people)
    (heq : e.splitType = .equal → e.splitBetween ≠ [])
    (hcu : e.splitType = .custom →
      ∃ ca, e.customAmounts = some ca ∧
        (e.splitBetween.map (fun p => (lookupShare ca p).getD 0)).sum = e.amount) :
    (people.map (fun p => owesShare e p)).sum = e.amount := by
  rcases e with ⟨amount, paidBy, ty, split, ca⟩
  cases ty with
  | equal =>
    have hne : split ≠ [] := heq rfl
    have hlen : ((split.length : ℚ)) ≠ 0 := by
      simpa using fun h => hne (List.length_eq_zero.mp h)
    have h1 : (people.map
          (fun p => owesShare ⟨amount, paidBy, .equal, split, ca⟩ p)).sum =
        (split.map (fun _ => amount / (split.length : ℚ))).sum := by
      have h := sum_count_mul people hnd split hsub (fun _ => amount / (split.length : ℚ))
      simpa [owesShare] using h
    rw [h1, sum_map_const, mul_div_cancel₀ _ hlen]
  | custom =>
    rcases hcu rfl with ⟨ca', hca', hsum⟩
    subst hca'
    have h := sum_count_mul people hnd split hsub (fun q => (lookupShare ca' q).getD 0)
    simp only at hsum
    rw [← hsum]
    simpa [owesShare] using h

theorem sum_paidTotal (people : List String) (hnd : people.Nodup) :
    ∀ es : List Expense, (∀ e ∈ es, e.paidBy ∈ people) →
      (people.map (fun p => paidTotal es p)).sum = (es.map (fun e => e.amount)).sum := by
  intro es
  induction es with
  | nil =>
    intro _
    simp [paidTotal]
  | cons e es ih =>
    intro hpay
    have h1 : (people.map (fun p => paidTotal (e :: es) p)).sum =
        (people.map (fun p => paidShare e p)).sum +
          (people.map (fun p => paidTotal es p)).sum := by
      rw [← sum_map_add]
      exact congrArg List.sum (List.map_congr_left (fun p _ => paidTotal_cons e es p))
    rw [List.map_cons, List.sum_cons, h1,
      ih (fun e' he' => hpay e' (List.mem_cons_of_mem _ he')),
      sum_paidShare people hnd e (hpay e (List.mem_cons_self _ _))]

theorem sum_owesTotal (people : List String) (hnd : people.Nodup) :
    ∀ es : List Expense,
      (∀ e ∈ es, ∀ q ∈ e.splitBetween, q ∈ people) →
      (∀ e ∈ es, e.splitType = .equal → e.splitBetween ≠ []) →
      (∀ e ∈ es, e.splitType = .custom →
        ∃ ca, e.customAmounts = some ca ∧
          (e.splitBetween.map (fun p => (lookupShare ca p).getD 0)).sum = e.amount) →
      (people.map (fun p => owesTotal es p)).sum = (es.map (fun e => e.amount)).sum := by
  intro es
  induction es with
  | nil =>
    intro _ _ _
    simp [owesTotal]
  | cons e es ih =>
    intro hsub heq hcu
    have h1 : (people.map (fun p => owesTotal (e :: es) p)).sum =
        (people.map (fun p => owesShare e p)).sum +
          (people.map (fun p => owesTotal es p)).sum := by
      rw [← sum_map_add]
      exact congrArg List.sum (List.map_congr_left (fun p _ => owesTotal_cons e es p))
    rw [List.map_cons, List.sum_cons, h1,
      ih (fun e' he' => hsub e' (List.mem_cons_of_mem _ he'))
        (fun e' he' => heq e' (List.mem_cons_of_mem _ he'))
        (fun e' he' => hcu e' (List.mem_cons_of_mem _ he')),
      sum_owesShare people hnd e (hsub e (List.mem_cons_self _ _))
        (heq e (List.mem_cons_self _ _)) (hcu e (List.mem_cons_self _ _))]

theorem sumPaid_eq_amounts (people : List String) (es : List Expense)
    (hnd : people.Nodup) (hpay : ∀ e ∈ es, e.paidBy ∈ people) :
    sumPaid (calculateBalances people es) = (es.map (fun e => e.amount)).sum := by
  rw [calculateBalances_eq_map people es hnd]
  have h : sumPaid (people.map (fun p =>
      (p, (⟨paidTotal es p, owesTotal es p, paidTotal es p - owesTotal es p⟩ : Balance)))) =
      (people.map (fun p => paidTotal es p)).sum := by
    simp only [sumPaid, List.map_map]
    exact congrArg List.sum (List.map_congr_left (fun p _ => rfl))
  rw [h, sum_paidTotal people hnd es hpay]

theorem sumOwes_eq_amounts (people : List String) (es : List Expense)
    (hnd : people.Nodup)
    (hsub : ∀ e ∈ es, ∀ q ∈ e.splitBetween, q ∈ people)
    (heq : ∀ e ∈ es, e.splitType = .equal → e.splitBetween ≠ [])
    (hcu : ∀ e ∈ es, e.splitType = .custom →
      ∃ ca, e.customAmounts = some ca ∧
        (e.splitBetween.map (fun p => (lookupShare ca p).getD 0)).sum = e.amount) :
    sumOwes (calculateBalances people es) = (es.map (fun e => e.amount)).sum := by
  rw [calculateBalances_eq_map people es hnd]
  have h : sumOwes (people.map (fun p =>
      (p, (⟨paidTotal es p, owesTotal es p, paidTotal es p - owesTotal es p⟩ : Balance)))) =
      (people.map (fun p => owesTotal es p)).sum := by
    simp only [sumOwes, List.map_map]
    exact congrArg List.sum (List.map_congr_left (fun p _ => rfl))
  rw [h, sum_owesTotal people hnd es hsub heq hcu]

theorem sumBal_eq_zero (people : List String) (es : List Expense)
    (hnd : people.Nodup)
    (hmem : ∀ e ∈ es, e.paidBy ∈ people ∧ ∀ q ∈ e.splitBetween, q ∈ people)
    (heq : ∀ e ∈ es, e.splitType = .equal → e.splitBetween ≠ [])
    (hcu : ∀ e ∈ es, e.splitType = .custom →
      ∃ ca, e.customAmounts = some ca ∧
        (e.splitBetween.map (fun p => (lookupShare ca p).getD 0)).sum = e.amount) :
    sumBal (calculateBalances people es) = 0 := by
  have hb : sumBal (calculateBalances people es) =
      sumPaid (calculateBalances people es) - sumOwes (calculateBalances people es) := by
    rw [calculateBalances_eq_map people es hnd]
    have h1 : sumBal (people.map (fun p =>
        (p, (⟨paidTotal es p, owesTotal es p, paidTotal es p - owesTotal es p⟩ : Balance)))) =
        (people.map (fun p => paidTotal es p - owesTotal es p)).sum := by
      simp only [sumBal, List.map_map]
      exact congrArg List.sum (List.map_congr_left (fun p _ => rfl))
    have h2 : sumPaid (people.map (fun p =>
        (p, (⟨paidTotal es p, owesTotal es p, paidTotal es p - owesTotal es p⟩ : Balance)))) =
        (people.map (fun p => paidTotal es p)).sum := by
      simp only [sumPaid, List.map_map]
      exact congrArg List.sum (List.map_congr_left (fun p _ => rfl))
    have h3 : sumOwes (people.map (fun p =>
        (p, (⟨paidTotal es p, owesTotal es p, paidTotal es p - owesTotal es p⟩ : Balance)))) =
        (people.map (fun p => owesTotal es p)).sum := by
      simp only [sumOwes, List.map_map]
      exact congrArg List.sum (List.map_congr_left (fun p _ => rfl))
    rw [h1, h2, h3, sum_map_sub]
  rw [hb, sumPaid_eq_amounts people es hnd (fun e he => (hmem e he).1),
    sumOwes_eq_amounts people es hnd (fun e he => (hmem e he).2) heq hcu, sub_self]

/-- C2 (amended): conservation, `sum(paid) = sum(owed)` exactly, holds under
the hypotheses the code's two unattributed edge cases force: every payer and
sharer a roster member, no `equal`-mode expense with an empty sharer list,
and every `custom`-mode expense carrying `customAmounts` whose shares sum
over `splitBetween` to the expense amount. -/
theorem claim_C2_conservation (people : List String) (es : List Expense)
    (hnd : people.Nodup)
    (hmem : ∀ e ∈ es, e.paidBy ∈ people ∧ ∀ q ∈ e.splitBetween, q ∈ people)
    (heq : ∀ e ∈ es, e.splitType = .equal → e.splitBetween ≠ [])
    (hcu : ∀ e ∈ es, e.splitType = .custom →
      ∃ ca, e.customAmounts = some ca ∧
        (e.splitBetween.map (fun p => (lookupShare ca p).getD 0)).sum = e.amount) :
    sumPaid (calculateBalances people es) = sumOwes (calculateBalances people es) := by
  rw [sumPaid_eq_amounts people es hnd (fun e he => (hmem e he).1),
    sumOwes_eq_amounts people es hnd (fun e he => (hmem e he).2) heq hcu]

/-- The claim C2 as frozen is false on the code: an `equal`-mode expense with
an empty `splitBetween` (its payer a roster member) credits `paid` but
attributes no `owes`, so the totals differ by the full amount `1`, far beyond
the `0.01` tolerance. -/
theorem claim_C2_counterexample :
    sumPaid (calculateBalances ["Ann"] [⟨1, "Ann", .equal, [], none⟩]) = 1 ∧
    sumOwes (calculateBalances ["Ann"] [⟨1, "Ann", .equal, [], none⟩]) = 0 := by
  constructor <;>
    norm_num [sumPaid, sumOwes, calculateBalances, initBalances, applyExpense, addPaid,
      addOwes, updEntry]

/-- Witness for the amended C2 at a concrete input. -/
theorem claim_C2_conservation_witness :
    (["Ann", "Bea"] : List String).Nodup ∧
    sumPaid (calculateBalances ["Ann", "Bea"] [⟨6, "Ann", .equal, ["Ann", "Bea"], none⟩]) =
      sumOwes (calculateBalances ["Ann", "Bea"] [⟨6, "Ann", .equal, ["Ann", "Bea"], none⟩]) :=
  ⟨by decide,
    claim_C2_conservation ["Ann", "Bea"] [⟨6, "Ann", .equal, ["Ann", "Bea"], none⟩]
      (by decide) (by simp) (by simp) (by simp)⟩

/-! ### The simplifier: basic structure -/

theorem settleGo_nil_left (fuel : Nat) (ds : List (String × ℚ)) :
    settleGo fuel [] ds = [] := by
  cases fuel <;> rfl

theorem settleGo_nil_right (fuel : Nat) (cs : List (String × ℚ)) :
    settleGo fuel cs [] = [] := by
  cases fuel with
  | zero => rfl
  | succ n => cases cs <;> rfl

theorem insertDesc_perm (x : String × ℚ) (l : List (String × ℚ)) :
    (insertDesc x l).Perm (x :: l) := by
  induction l with
  | nil => exact List.Perm.refl _
  | cons y ys ih =>
    rw [insertDesc]
    by_cases h : x.2 ≤ y.2
    · rw [if_pos h]
      exact (ih.cons y).trans (List.Perm.swap x y ys)
    · rw [if_neg h]

theorem sortDesc_perm (l : List (String × ℚ)) : (sortDesc l).Perm l := by
  have main : ∀ (l acc : List (String × ℚ)),
      (l.foldl (fun acc x => insertDesc x acc) acc).Perm (l ++ acc) := by
    intro l
    induction l with
    | nil => intro acc; simp
    | cons x l ih =>
      intro acc
      rw [List.foldl_cons]
      refine (ih (insertDesc x acc)).trans ?_
      refine (List.Perm.append_left l (insertDesc_perm x acc)).trans ?_
      exact List.perm_middle
  simpa using main l []

/-- C9: a balance map in which every net is within ±0.01 of zero produces the
empty transfer list. -/
theorem claim_C9_settled_noop (bs : List (String × Balance))
    (h : ∀ x ∈ bs, -eps ≤ x.2.balance ∧ x.2.balance ≤ eps) :
    simplifyDebts bs = [] := by
  have hc : creditorsOf bs = [] := by
    rw [creditorsOf, List.filterMap_eq_nil]
    intro x hx
    rw [if_neg (not_lt.mpr (h x hx).2)]
  have hd : debtorsOf bs = [] := by
    rw [debtorsOf, List.filterMap_eq_nil]
    intro x hx
    rw [if_neg (not_lt.mpr (h x hx).1)]
  rw [simplifyDebts, hc, hd]
  rfl

/-- Witness for C9: one settled participant, no transfers. -/
theorem claim_C9_settled_noop_witness :
    (∀ x ∈ [("Ann", (⟨5, 5, 0⟩ : Balance))], -eps ≤ x.2.balance ∧ x.2.balance ≤ eps) ∧
    simplifyDebts [("Ann", ⟨5, 5, 0⟩)] = [] :=
  ⟨by norm_num [eps], claim_C9_settled_noop [("Ann", ⟨5, 5, 0⟩)] (by norm_num [eps])⟩

/-- C10: the transfer list depends only on each entry's key and net balance
(and their order): the `paid` and `owes` fields never influence it. -/
theorem claim_C10_net_only (bs₁ bs₂ : List (String × Balance))
    (h : bs₁.map (fun q => (q.1, q.2.balance)) = bs₂.map (fun q => (q.1, q.2.balance))) :
    simplifyDebts bs₁ = simplifyDebts bs₂ := by
  have key : ∀ bs : List (String × Balance), creditorsOf bs =
      (bs.map (fun q => (q.1, q.2.balance))).filterMap
        (fun x : String × ℚ => if x.2 > eps then some (x.1, x.2) else none) := by
    intro bs
    rw [List.filterMap_map]
    rfl
  have keyd : ∀ bs : List (String × Balance), debtorsOf bs =
      (bs.map (fun q => (q.1, q.2.balance))).filterMap
        (fun x : String × ℚ => if x.2 < -eps then some (x.1, -x.2) else none) := by
    intro bs
    rw [List.filterMap_map]
    rfl
  have hc : creditorsOf bs₁ = creditorsOf bs₂ := by rw [key, key, h]
  have hd : debtorsOf bs₁ = debtorsOf bs₂ := by rw [keyd, keyd, h]
  rw [simplifyDebts, simplifyDebts, hc, hd]

/-- Witness for C10: same nets, different paid/owes, same transfers. -/
theorem claim_C10_net_only_witness :
    ([("Ann", (⟨3, 1, 2⟩ : Balance))].map (fun q => (q.1, q.2.balance)) =
      [("Ann", (⟨7, 5, 2⟩ : Balance))].map (fun q => (q.1, q.2.balance))) ∧
    simplifyDebts [("Ann", ⟨3, 1, 2⟩)] = simplifyDebts [("Ann", ⟨7, 5, 2⟩)] :=
  ⟨rfl, claim_C10_net_only [("Ann", ⟨3, 1, 2⟩)] [("Ann", ⟨7, 5, 2⟩)] rfl⟩

/-- One unfolding of the loop body, with the emission isolated as a prefix. -/
theorem settleGo_succ_cons (n : Nat) (c d : String × ℚ) (cs ds : List (String × ℚ)) :
    settleGo (n + 1) (c :: cs) (d :: ds) =
      (if min c.2 d.2 > eps then [(⟨d.1, c.1, min c.2 d.2⟩ : SimplifiedDebt)] else []) ++
      (if c.2 - min c.2 d.2 < eps then
        if d.2 - min c.2 d.2 < eps then settleGo n cs ds
        else settleGo n cs ((d.1, d.2 - min c.2 d.2) :: ds)
      else
        if d.2 - min c.2 d.2 < eps then settleGo n ((c.1, c.2 - min c.2 d.2) :: cs) ds
        else []) := by
  simp only [settleGo]
  by_cases h3 : min c.2 d.2 > eps <;> simp [h3]

theorem settleGo_mem :
    ∀ (fuel : Nat) (cs ds : List (String × ℚ)) (t : SimplifiedDebt),
      t ∈ settleGo fuel cs ds →
      t.«to» ∈ cs.map (fun x => x.1) ∧ t.«from» ∈ ds.map (fun x => x.1) ∧
        eps < t.amount := by
  intro fuel
  induction fuel with
  | zero =>
    intro cs ds t ht
    simp [settleGo] at ht
  | succ n ih =>
    intro cs ds t ht
    match cs, ds with
    | [], ds =>
      rw [settleGo_nil_left] at ht
      simp at ht
    | c :: cs, [] =>
      rw [settleGo_nil_right] at ht
      simp at ht
    | c :: cs, d :: ds =>
      rw [settleGo_succ_cons] at ht
      rcases List.mem_append.mp ht with hemit | hrest
      · by_cases h3 : min c.2 d.2 > eps
        · rw [if_pos h3] at hemit
          rw [List.mem_singleton.mp hemit]
          exact ⟨by simp, by simp, h3⟩
        · rw [if_neg h3] at hemit
          simp at hemit
      · split_ifs at hrest with h1 h2 h2
        · rcases ih cs ds t hrest with ⟨ha, hb, hc⟩
          exact ⟨by simp [ha], by simp [hb], hc⟩
        · rcases ih cs ((d.1, d.2 - min c.2 d.2) :: ds) t hrest with ⟨ha, hb, hc⟩
          refine ⟨by simp [ha], ?_, hc⟩
          simp only [List.map_cons] at hb ⊢
          exact hb
        · rcases ih ((c.1, c.2 - min c.2 d.2) :: cs) ds t hrest with ⟨ha, hb, hc⟩
          refine ⟨?_, by simp [hb], hc⟩
          simp only [List.map_cons] at ha ⊢
          exact ha
        · simp at hrest

/-- The transfer count never exceeds `creditors + debtors − 1`. -/
theorem settleGo_length :
    ∀ (fuel : Nat) (cs ds : List (String × ℚ)),
      (settleGo fuel cs ds).length ≤ cs.length + ds.length - 1 := by
  intro fuel
  induction fuel with
  | zero =>
    intro cs ds
    simp [settleGo]
  | succ n ih =>
    intro cs ds
    match cs, ds with
    | [], ds =>
      rw [settleGo_nil_left]
      simp
    | c :: cs, [] =>
      rw [settleGo_nil_right]
      simp
    | c :: cs, d :: ds =>
      rw [settleGo_succ_cons, List.length_append]
      have hemit : (if min c.2 d.2 > eps then
          [(⟨d.1, c.1, min c.2 d.2⟩ : SimplifiedDebt)] else []).length ≤ 1 := by
        split_ifs <;> simp
      have hrest : (if c.2 - min c.2 d.2 < eps then
          if d.2 - min c.2 d.2 < eps then settleGo n cs ds
          else settleGo n cs ((d.1, d.2 - min c.2 d.2) :: ds)
        else
          if d.2 - min c.2 d.2 < eps then settleGo n ((c.1, c.2 - min c.2 d.2) :: cs) ds
          else []).length ≤ cs.length + ds.length := by
        split_ifs with h1 h2 h2
        · have := ih cs ds
          omega
        · have := ih cs ((d.1, d.2 - min c.2 d.2) :: ds)
          simp only [List.length_cons] at this
          omega
        · have := ih ((c.1, c.2 - min c.2 d.2) :: cs) ds
          simp only [List.length_cons] at this
          omega
        · simp
      simp only [List.length_cons]
      omega

/-- Any fuel of at least `creditors + debtors` computes the same transfer
list: the loop terminates within that many iterations. -/
theorem settleGo_fuel_eq :
    ∀ (f₁ f₂ : Nat) (cs ds : List (String × ℚ)),
      cs.length + ds.length ≤ f₁ → cs.length + ds.length ≤ f₂ →
      settleGo f₁ cs ds = settleGo f₂ cs ds := by
  intro f₁
  induction f₁ with
  | zero =>
    intro f₂ cs ds h₁ h₂
    have hcs : cs = [] := List.length_eq_zero.mp (by omega)
    subst hcs
    rw [settleGo_nil_left, settleGo_nil_left]
  | succ n ih =>
    intro f₂ cs ds h₁ h₂
    match cs, ds with
    | [], ds => rw [settleGo_nil_left, settleGo_nil_left]
    | c :: cs, [] => rw [settleGo_nil_right, settleGo_nil_right]
    | c :: cs, d :: ds =>
      cases f₂ with
      | zero =>
        simp only [List.length_cons] at h₂
        omega
      | succ m =>
        rw [settleGo_succ_cons, settleGo_succ_cons]
        simp only [List.length_cons] at h₁ h₂
        congr 1
        split_ifs with h1 h2 h2
        · exact ih m cs ds (by omega) (by omega)
        · exact ih m cs ((d.1, d.2 - min c.2 d.2) :: ds)
            (by simp only [List.length_cons]; omega) (by simp only [List.length_cons]; omega)
        · exact ih m ((c.1, c.2 - min c.2 d.2) :: cs) ds
            (by simp only [List.length_cons]; omega) (by simp only [List.length_cons]; omega)
        · rfl

/-! ### Creditor/debtor partition facts -/

theorem mem_creditorsOf (bs : List (String × Balance)) (x : String × ℚ)
    (hx : x ∈ creditorsOf bs) :
    ∃ b, (x.1, b) ∈ bs ∧ b.balance > eps ∧ x.2 = b.balance := by
  induction bs with
  | nil => simp [creditorsOf] at hx
  | cons q bs ih =>
    rw [creditorsOf, List.filterMap_cons] at hx
    by_cases hq : q.2.balance > eps
    · rw [if_pos hq] at hx
      rcases List.mem_cons.mp hx with h | h
      · subst h
        exact ⟨q.2, List.mem_cons_self _ _, hq, rfl⟩
      · rcases ih h with ⟨b, hb, hgt, hv⟩
        exact ⟨b, List.mem_cons_of_mem _ hb, hgt, hv⟩
    · rw [if_neg hq] at hx
      rcases ih hx with ⟨b, hb, hgt, hv⟩
      exact ⟨b, List.mem_cons_of_mem _ hb, hgt, hv⟩

theorem mem_debtorsOf (bs : List (String × Balance)) (x : String × ℚ)
    (hx : x ∈ debtorsOf bs) :
    ∃ b, (x.1, b) ∈ bs ∧ b.balance < -eps ∧ x.2 = -b.balance := by
  induction bs with
  | nil => simp [debtorsOf] at hx
  | cons q bs ih =>
    rw [debtorsOf, List.filterMap_cons] at hx
    by_cases hq : q.2.balance < -eps
    · rw [if_pos hq] at hx
      rcases List.mem_cons.mp hx with h | h
      · subst h
        exact ⟨q.2, List.mem_cons_self _ _, hq, rfl⟩
      · rcases ih h with ⟨b, hb, hlt, hv⟩
        exact ⟨b, List.mem_cons_of_mem _ hb, hlt, hv⟩
    · rw [if_neg hq] at hx
      rcases ih hx with ⟨b, hb, hlt, hv⟩
      exact ⟨b, List.mem_cons_of_mem _ hb, hlt, hv⟩

theorem mem_creditorsOf_of_entry (bs : List (String × Balance)) (p : String)
    (b : Balance) (hb : (p, b) ∈ bs) (hgt : b.balance > eps) :
    (p, b.balance) ∈ creditorsOf bs := by
  induction bs with
  | nil => simp at hb
  | cons q bs ih =>
    rw [creditorsOf, List.filterMap_cons]
    rcases List.mem_cons.mp hb with h | h
    · rw [← h, if_pos hgt]
      exact List.mem_cons_self _ _
    · split_ifs with hq
      · exact List.mem_cons_of_mem _ (ih h)
      · exact ih h

theorem mem_debtorsOf_of_entry (bs : List (String × Balance)) (p : String)
    (b : Balance) (hb : (p, b) ∈ bs) (hlt : b.balance < -eps) :
    (p, -b.balance) ∈ debtorsOf bs := by
  induction bs with
  | nil => simp at hb
  | cons q bs ih =>
    rw [debtorsOf, List.filterMap_cons]
    rcases List.mem_cons.mp hb with h | h
    · rw [← h, if_pos hlt]
      exact List.mem_cons_self _ _
    · split_ifs with hq
      · exact List.mem_cons_of_mem _ (ih h)
      · exact ih h

theorem nodup_key_val_eq (bs : List (String × Balance)) (hnd : (keysOf bs).Nodup)
    (p : String) (b₁ b₂ : Balance) (h₁ : (p, b₁) ∈ bs) (h₂ : (p, b₂) ∈ bs) :
    b₁ = b₂ := by
  induction bs with
  | nil => simp at h₁
  | cons x bs ih =>
    have hnd' : (x.1 :: keysOf bs).Nodup := hnd
    rcases List.mem_cons.mp h₁ with hh₁ | hh₁ <;> rcases List.mem_cons.mp h₂ with hh₂ | hh₂
    · rw [← hh₂] at hh₁
      exact congrArg Prod.snd (Prod.mk.injEq .. ▸ hh₁ : (p, b₁) = (p, b₂))
    · exfalso
      apply (List.nodup_cons.mp hnd').1
      rw [← hh₁]
      exact List.mem_map.mpr ⟨(p, b₂), hh₂, rfl⟩
    · exfalso
      apply (List.nodup_cons.mp hnd').1
      rw [← hh₂]
      exact List.mem_map.mpr ⟨(p, b₁), hh₁, rfl⟩
    · exact ih (List.nodup_cons.mp hnd').2 hh₁ hh₂

theorem keys_creditorsOf_sublist (bs : List (String × Balance)) :
    List.Sublist ((creditorsOf bs).map (fun x => x.1)) (keysOf bs) := by
  induction bs with
  | nil => simp [creditorsOf, keysOf]
  | cons q bs ih =>
    rw [creditorsOf, List.filterMap_cons]
    split_ifs with hq
    · simpa [keysOf] using List.Sublist.cons₂ q.1 (by simpa [creditorsOf] using ih)
    · simpa [keysOf] using List.Sublist.cons q.1 (by simpa [creditorsOf] using ih)

theorem keys_debtorsOf_sublist (bs : List (String × Balance)) :
    List.Sublist ((debtorsOf bs).map (fun x => x.1)) (keysOf bs) := by
  induction bs with
  | nil => simp [debtorsOf, keysOf]
  | cons q bs ih =>
    rw [debtorsOf, List.filterMap_cons]
    split_ifs with hq
    · simpa [keysOf] using List.Sublist.cons₂ q.1 (by simpa [debtorsOf] using ih)
    · simpa [keysOf] using List.Sublist.cons q.1 (by simpa [debtorsOf] using ih)

/-- Well-formedness of the emitted transfers (the content of claim C8). -/
theorem simplifyDebts_wf (bs : List (String × Balance))
    (hnd : (keysOf bs).Nodup) :
    ∀ t ∈ simplifyDebts bs, t.«from» ≠ t.«to» ∧ eps < t.amount := by
  intro t ht
  rw [simplifyDebts] at ht
  rcases settleGo_mem _ _ _ t ht with ⟨hto, hfrom, hamt⟩
  have hto' : t.«to» ∈ (creditorsOf bs).map (fun x => x.1) :=
    (((sortDesc_perm (creditorsOf bs)).map (fun x => x.1)).mem_iff).mp hto
  have hfrom' : t.«from» ∈ (debtorsOf bs).map (fun x => x.1) :=
    (((sortDesc_perm (debtorsOf bs)).map (fun x => x.1)).mem_iff).mp hfrom
  rcases List.mem_map.mp hto' with ⟨xc, hxc, hxck⟩
  rcases List.mem_map.mp hfrom' with ⟨xd, hxd, hxdk⟩
  rcases mem_creditorsOf bs xc hxc with ⟨bc, hbc, hcgt, -⟩
  rcases mem_debtorsOf bs xd hxd with ⟨bd, hbd, hdlt, -⟩
  refine ⟨?_, hamt⟩
  intro hft
  have hsame : (t.«to», bd) ∈ bs := by
    rw [← hft, ← hxdk]
    exact hbd
  have hbceq : bc = bd := nodup_key_val_eq bs hnd t.«to» bc bd (hxck ▸ hbc) hsame
  rw [hbceq] at hcgt
  have heps : (0 : ℚ) < eps := by norm_num [eps]
  linarith

/-! ### The simplifier claims C8, C4 -/

/-- C8: on any balance map with distinct keys, every transfer `simplifyDebts`
emits has `from ≠ to` and `amount > 0.01`. -/
theorem claim_C8_transfer_wf (bs : List (String × Balance))
    (hnd : (keysOf bs).Nodup) :
    ∀ t ∈ simplifyDebts bs, t.«from» ≠ t.«to» ∧ eps < t.amount :=
  simplifyDebts_wf bs hnd

/-- Witness for C8 at a concrete balance map. -/
theorem claim_C8_transfer_wf_witness :
    (keysOf [("Ann", (⟨2, 0, 2⟩ : Balance)), ("Bea", ⟨0, 2, -2⟩)]).Nodup ∧
    ∀ t ∈ simplifyDebts [("Ann", (⟨2, 0, 2⟩ : Balance)), ("Bea", ⟨0, 2, -2⟩)],
      t.«from» ≠ t.«to» ∧ eps < t.amount :=
  ⟨by decide,
    claim_C8_transfer_wf [("Ann", ⟨2, 0, 2⟩), ("Bea", ⟨0, 2, -2⟩)] (by decide)⟩

/-- C4: the greedy loop needs no more than `creditors.length + debtors.length`
iterations of fuel — any such fuel computes the same transfer list — and the
number of transfers emitted is at most `creditors.length + debtors.length − 1`. -/
theorem claim_C4_termination (bs : List (String × Balance)) :
    (∀ fuel : Nat,
      (creditorsOf bs).length + (debtorsOf bs).length ≤ fuel →
      settleGo fuel (sortDesc (creditorsOf bs)) (sortDesc (debtorsOf bs)) =
        simplifyDebts bs) ∧
    (simplifyDebts bs).length ≤ (creditorsOf bs).length + (debtorsOf bs).length - 1 := by
  have hlc : (sortDesc (creditorsOf bs)).length = (creditorsOf bs).length :=
    (sortDesc_perm (creditorsOf bs)).length_eq
  have hld : (sortDesc (debtorsOf bs)).length = (debtorsOf bs).length :=
    (sortDesc_perm (debtorsOf bs)).length_eq
  constructor
  · intro fuel hf
    rw [simplifyDebts]
    exact settleGo_fuel_eq fuel _ _ _ (by rw [hlc, hld]; exact hf) (by rw [hlc, hld])
  · rw [simplifyDebts]
    calc (settleGo ((sortDesc (creditorsOf bs)).length + (sortDesc (debtorsOf bs)).length)
          (sortDesc (creditorsOf bs)) (sortDesc (debtorsOf bs))).length
        ≤ (sortDesc (creditorsOf bs)).length + (sortDesc (debtorsOf bs)).length - 1 :=
          settleGo_length _ _ _
      _ = (creditorsOf bs).length + (debtorsOf bs).length - 1 := by rw [hlc, hld]

/-! ### Applying transfers to a running ledger -/

theorem toAmt_nil (q : String) : toAmt q [] = 0 := rfl

theorem fromAmt_nil (q : String) : fromAmt q [] = 0 := rfl

theorem toAmt_cons (q : String) (t : SimplifiedDebt) (ts : List SimplifiedDebt) :
    toAmt q (t :: ts) = (if t.«to» = q then t.amount else 0) + toAmt q ts := by
  simp [toAmt]

theorem fromAmt_cons (q : String) (t : SimplifiedDebt) (ts : List SimplifiedDebt) :
    fromAmt q (t :: ts) = (if t.«from» = q then t.amount else 0) + fromAmt q ts := by
  simp [fromAmt]

theorem toAmt_append (q : String) (ts₁ ts₂ : List SimplifiedDebt) :
    toAmt q (ts₁ ++ ts₂) = toAmt q ts₁ + toAmt q ts₂ := by
  simp [toAmt]

theorem fromAmt_append (q : String) (ts₁ ts₂ : List SimplifiedDebt) :
    fromAmt q (ts₁ ++ ts₂) = fromAmt q ts₁ + fromAmt q ts₂ := by
  simp [fromAmt]

theorem totalAmt_nil : totalAmt [] = 0 := rfl

theorem totalAmt_cons (t : SimplifiedDebt) (ts : List SimplifiedDebt) :
    totalAmt (t :: ts) = t.amount + totalAmt ts := by
  simp [totalAmt]

theorem totalAmt_append (ts₁ ts₂ : List SimplifiedDebt) :
    totalAmt (ts₁ ++ ts₂) = totalAmt ts₁ + totalAmt ts₂ := by
  simp [totalAmt]

theorem toAmt_eq_zero (q : String) (ts : List SimplifiedDebt)
    (h : ∀ t ∈ ts, t.«to» ≠ q) : toAmt q ts = 0 := by
  induction ts with
  | nil => rfl
  | cons t ts ih =>
    rw [toAmt_cons, if_neg (h t (List.mem_cons_self _ _)),
      ih (fun t' ht' => h t' (List.mem_cons_of_mem _ ht')), add_zero]

theorem fromAmt_eq_zero (q : String) (ts : List SimplifiedDebt)
    (h : ∀ t ∈ ts, t.«from» ≠ q) : fromAmt q ts = 0 := by
  induction ts with
  | nil => rfl
  | cons t ts ih =>
    rw [fromAmt_cons, if_neg (h t (List.mem_cons_self _ _)),
      ih (fun t' ht' => h t' (List.mem_cons_of_mem _ ht')), add_zero]

theorem map_bal_id (bs : List (String × Balance)) :
    bs.map (fun q => (q.1, { q.2 with balance := q.2.balance + 0 - 0 })) = bs := by
  induction bs with
  | nil => rfl
  | cons b bs ih => simp [ih]

/-- Pointwise characterization of folding `applyTransfer` over a transfer
list whose transfers never name the same participant on both sides. -/
theorem applyAll_eq (ts : List SimplifiedDebt) (bs : List (String × Balance))
    (hft : ∀ t ∈ ts, t.«from» ≠ t.«to») :
    applyAll bs ts = bs.map (fun q =>
      (q.1, { q.2 with balance := q.2.balance + fromAmt q.1 ts - toAmt q.1 ts })) := by
  induction ts generalizing bs with
  | nil =>
    show bs = _
    have hid : ∀ cs : List (String × Balance),
        List.map (fun q : String × Balance =>
          (q.1, { q.2 with balance := q.2.balance + fromAmt q.1 [] - toAmt q.1 [] })) cs =
          cs := by
      intro cs
      induction cs with
      | nil => rfl
      | cons c cs ihc => simp [fromAmt, toAmt, ihc]
    exact (hid bs).symm
  | cons t ts ih =>
    show applyAll (applyTransfer bs t) ts = _
    rw [ih (applyTransfer bs t) (fun t' ht' => hft t' (List.mem_cons_of_mem _ ht'))]
    rw [applyTransfer, List.map_map]
    refine List.map_congr_left ?_
    intro q _
    have hftt : t.«from» ≠ t.«to» := hft t (List.mem_cons_self _ _)
    simp only [Function.comp]
    by_cases hqf : q.1 = t.«from»
    · have hfq : t.«from» = q.1 := hqf.symm
      have htq : ¬ t.«to» = q.1 := fun h => hftt (hqf.symm.trans h.symm)
      rw [if_pos hqf]
      dsimp only
      rw [toAmt_cons, fromAmt_cons, if_pos hfq, if_neg htq]
      simp only [Prod.mk.injEq, Balance.mk.injEq, true_and]
      ring
    · rw [if_neg hqf]
      have hfq : ¬ t.«from» = q.1 := fun h => hqf h.symm
      by_cases hqt : q.1 = t.«to»
      · have htq : t.«to» = q.1 := hqt.symm
        rw [if_pos hqt]
        dsimp only
        rw [toAmt_cons, fromAmt_cons, if_pos htq, if_neg hfq]
        simp only [Prod.mk.injEq, Balance.mk.injEq, true_and]
        ring
      · have htq : ¬ t.«to» = q.1 := fun h => hqt h.symm
        rw [if_neg hqt]
        rw [toAmt_cons, fromAmt_cons, if_neg htq, if_neg hfq]
        simp only [Prod.mk.injEq, Balance.mk.injEq, true_and]
        ring

/-- A creditor never receives more than its listed amount. -/
theorem settleGo_toAmt_le :
    ∀ (fuel : Nat) (cs ds : List (String × ℚ)),
      (cs.map (fun x => x.1)).Nodup →
      (∀ x ∈ cs, 0 ≤ x.2) → (∀ x ∈ ds, 0 ≤ x.2) →
      ∀ x ∈ cs, toAmt x.1 (settleGo fuel cs ds) ≤ x.2 := by
  have hepspos : (0 : ℚ) < eps := by norm_num [eps]
  intro fuel
  induction fuel with
  | zero =>
    intro cs ds _ hcs _ x hx
    rw [show settleGo 0 cs ds = [] from rfl, toAmt_nil]
    exact hcs x hx
  | succ n ih =>
    intro cs ds hnd hcs hds x hx
    match cs, ds with
    | [], _ => simp at hx
    | c :: cs, [] =>
      rw [settleGo_nil_right, toAmt_nil]
      exact hcs x hx
    | c :: cs, d :: ds =>
      rw [settleGo_succ_cons, toAmt_append]
      have hc0 : 0 ≤ c.2 := hcs c (List.mem_cons_self _ _)
      have hd0 : 0 ≤ d.2 := hds d (List.mem_cons_self _ _)
      have hamt0 : 0 ≤ min c.2 d.2 := le_min hc0 hd0
      have hcs' : ∀ y ∈ cs, 0 ≤ y.2 := fun y hy => hcs y (List.mem_cons_of_mem _ hy)
      have hds' : ∀ y ∈ ds, 0 ≤ y.2 := fun y hy => hds y (List.mem_cons_of_mem _ hy)
      have hnd' : (cs.map (fun x => x.1)).Nodup := (List.nodup_cons.mp hnd).2
      have hc1 : c.1 ∉ cs.map (fun x => x.1) := (List.nodup_cons.mp hnd).1
      rcases List.mem_cons.mp hx with hxc | hxtail
      · subst hxc
        have hemit : toAmt x.1 (if min x.2 d.2 > eps then
            [(⟨d.1, x.1, min x.2 d.2⟩ : SimplifiedDebt)] else []) ≤ min x.2 d.2 := by
          split_ifs
          · simp [toAmt]
          · rw [toAmt_nil]
            exact hamt0
        have hrest : toAmt x.1 (if x.2 - min x.2 d.2 < eps then
            if d.2 - min x.2 d.2 < eps then settleGo n cs ds
            else settleGo n cs ((d.1, d.2 - min x.2 d.2) :: ds)
          else
            if d.2 - min x.2 d.2 < eps then
              settleGo n ((x.1, x.2 - min x.2 d.2) :: cs) ds
            else []) ≤ x.2 - min x.2 d.2 := by
          have hzero : ∀ (ds' : List (String × ℚ)),
              toAmt x.1 (settleGo n cs ds') = 0 := by
            intro ds'
            apply toAmt_eq_zero
            intro t ht heq
            exact hc1 (heq ▸ (settleGo_mem n cs ds' t ht).1)
          split_ifs with h1 h2 h2
          · rw [hzero ds]
            linarith [min_le_left x.2 d.2]
          · rw [hzero ((d.1, d.2 - min x.2 d.2) :: ds)]
            linarith [min_le_left x.2 d.2]
          · refine ih ((x.1, x.2 - min x.2 d.2) :: cs) ds ?_ ?_ hds'
              (x.1, x.2 - min x.2 d.2) (List.mem_cons_self _ _)
            · simpa using hnd
            · intro y hy
              rcases List.mem_cons.mp hy with hyh | hyt
              · rw [hyh]
                have : eps ≤ x.2 - min x.2 d.2 := not_lt.mp h1
                dsimp only
                linarith
              · exact hcs' y hyt
          · rw [toAmt_nil]
            have : eps ≤ x.2 - min x.2 d.2 := not_lt.mp h1
            linarith
        have hmin : min x.2 d.2 ≤ x.2 := min_le_left _ _
        linarith
      · have hx1 : x.1 ∈ cs.map (fun y => y.1) := List.mem_map.mpr ⟨x, hxtail, rfl⟩
        have hcx : ¬ c.1 = x.1 := fun h => hc1 (h ▸ hx1)
        have hemit : toAmt x.1 (if min c.2 d.2 > eps then
            [(⟨d.1, c.1, min c.2 d.2⟩ : SimplifiedDebt)] else []) = 0 := by
          split_ifs
          · simp [toAmt, hcx]
          · rfl
        rw [hemit, zero_add]
        split_ifs with h1 h2 h2
        · exact ih cs ds hnd' hcs' hds' x hxtail
        · refine ih cs ((d.1, d.2 - min c.2 d.2) :: ds) hnd' hcs' ?_ x hxtail
          intro y hy
          rcases List.mem_cons.mp hy with hyh | hyt
          · rw [hyh]
            have : eps ≤ d.2 - min c.2 d.2 := not_lt.mp h2
            dsimp only
            linarith
          · exact hds' y hyt
        · refine ih ((c.1, c.2 - min c.2 d.2) :: cs) ds ?_ ?_ hds' x
            (List.mem_cons_of_mem _ hxtail)
          · simpa using hnd
          · intro y hy
            rcases List.mem_cons.mp hy with hyh | hyt
            · rw [hyh]
              have : eps ≤ c.2 - min c.2 d.2 := not_lt.mp h1
              dsimp only
              linarith
            · exact hcs' y hyt
        · rw [toAmt_nil]
          exact hcs x hx

/-- A debtor never pays out more than its listed amount. -/
theorem settleGo_fromAmt_le :
    ∀ (fuel : Nat) (cs ds : List (String × ℚ)),
      (ds.map (fun x => x.1)).Nodup →
      (∀ x ∈ cs, 0 ≤ x.2) → (∀ x ∈ ds, 0 ≤ x.2) →
      ∀ x ∈ ds, fromAmt x.1 (settleGo fuel cs ds) ≤ x.2 := by
  have hepspos : (0 : ℚ) < eps := by norm_num [eps]
  intro fuel
  induction fuel with
  | zero =>
    intro cs ds _ _ hds x hx
    rw [show settleGo 0 cs ds = [] from rfl, fromAmt_nil]
    exact hds x hx
  | succ n ih =>
    intro cs ds hnd hcs hds x hx
    match cs, ds with
    | [], _ =>
      rw [settleGo_nil_left, fromAmt_nil]
      exact hds x hx
    | c :: cs, [] => simp at hx
    | c :: cs, d :: ds =>
      rw [settleGo_succ_cons, fromAmt_append]
      have hc0 : 0 ≤ c.2 := hcs c (List.mem_cons_self _ _)
      have hd0 : 0 ≤ d.2 := hds d (List.mem_cons_self _ _)
      have hamt0 : 0 ≤ min c.2 d.2 := le_min hc0 hd0
      have hcs' : ∀ y ∈ cs, 0 ≤ y.2 := fun y hy => hcs y (List.mem_cons_of_mem _ hy)
      have hds' : ∀ y ∈ ds, 0 ≤ y.2 := fun y hy => hds y (List.mem_cons_of_mem _ hy)
      have hnd' : (ds.map (fun x => x.1)).Nodup := (List.nodup_cons.mp hnd).2
      have hd1 : d.1 ∉ ds.map (fun x => x.1) := (List.nodup_cons.mp hnd).1
      rcases List.mem_cons.mp hx with hxd | hxtail
      · subst hxd
        have hemit : fromAmt x.1 (if min c.2 x.2 > eps then
            [(⟨x.1, c.1, min c.2 x.2⟩ : SimplifiedDebt)] else []) ≤ min c.2 x.2 := by
          split_ifs
          · simp [fromAmt]
          · rw [fromAmt_nil]
            exact hamt0
        have hrest : fromAmt x.1 (if c.2 - min c.2 x.2 < eps then
            if x.2 - min c.2 x.2 < eps then settleGo n cs ds
            else settleGo n cs ((x.1, x.2 - min c.2 x.2) :: ds)
          else
            if x.2 - min c.2 x.2 < eps then
              settleGo n ((c.1, c.2 - min c.2 x.2) :: cs) ds
            else []) ≤ x.2 - min c.2 x.2 := by
          have hzero : ∀ (cs' : List (String × ℚ)),
              fromAmt x.1 (settleGo n cs' ds) = 0 := by
            intro cs'
            apply fromAmt_eq_zero
            intro t ht heq
            exact hd1 (heq ▸ (settleGo_mem n cs' ds t ht).2.1)
          split_ifs with h1 h2 h2
          · rw [hzero cs]
            linarith [min_le_right c.2 x.2]
          · refine ih cs ((x.1, x.2 - min c.2 x.2) :: ds) ?_ hcs' ?_
              (x.1, x.2 - min c.2 x.2) (List.mem_cons_self _ _)
            · simpa using hnd
            · intro y hy
              rcases List.mem_cons.mp hy with hyh | hyt
              · rw [hyh]
                have : eps ≤ x.2 - min c.2 x.2 := not_lt.mp h2
                dsimp only
                linarith
              · exact hds' y hyt
          · rw [hzero ((c.1, c.2 - min c.2 x.2) :: cs)]
            linarith [min_le_right c.2 x.2]
          · rw [fromAmt_nil]
            have : eps ≤ x.2 - min c.2 x.2 := not_lt.mp h2
            linarith
        have hmin : min c.2 x.2 ≤ x.2 := min_le_right _ _
        linarith
      · have hx1 : x.1 ∈ ds.map (fun y => y.1) := List.mem_map.mpr ⟨x, hxtail, rfl⟩
        have hdx : ¬ d.1 = x.1 := fun h => hd1 (h ▸ hx1)
        have hemit : fromAmt x.1 (if min c.2 d.2 > eps then
            [(⟨d.1, c.1, min c.2 d.2⟩ : SimplifiedDebt)] else []) = 0 := by
          split_ifs
          · simp [fromAmt, hdx]
          · rfl
        rw [hemit, zero_add]
        split_ifs with h1 h2 h2
        · exact ih cs ds hnd' hcs' hds' x hxtail
        · refine ih cs ((d.1, d.2 - min c.2 d.2) :: ds) ?_ hcs' ?_ x
            (List.mem_cons_of_mem _ hxtail)
          · simpa using hnd
          · intro y hy
            rcases List.mem_cons.mp hy with hyh | hyt
            · rw [hyh]
              have : eps ≤ d.2 - min c.2 d.2 := not_lt.mp h2
              dsimp only
              linarith
            · exact hds' y hyt
        · refine ih ((c.1, c.2 - min c.2 d.2) :: cs) ds hnd' ?_ hds' x hxtail
          intro y hy
          rcases List.mem_cons.mp hy with hyh | hyt
          · rw [hyh]
            have : eps ≤ c.2 - min c.2 d.2 := not_lt.mp h1
            dsimp only
            linarith
          · exact hcs' y hyt
        · rw [fromAmt_nil]
          exact hds x hx

theorem sumAmt_nil : sumAmt [] = 0 := rfl

theorem sumAmt_cons (x : String × ℚ) (l : List (String × ℚ)) :
    sumAmt (x :: l) = x.2 + sumAmt l := by
  simp [sumAmt]

/-- At loop exit at least one side's ledger residue is small: the exhausted
side's listed amounts exceed the total transferred by at most `2·eps` per own
element plus `eps` per opposite element. -/
theorem settleGo_residual :
    ∀ (fuel : Nat) (cs ds : List (String × ℚ)),
      cs.length + ds.length ≤ fuel →
      sumAmt cs - totalAmt (settleGo fuel cs ds) ≤
          2 * eps * cs.length + eps * ds.length ∨
      sumAmt ds - totalAmt (settleGo fuel cs ds) ≤
          2 * eps * ds.length + eps * cs.length := by
  have hepspos : (0 : ℚ) < eps := by norm_num [eps]
  intro fuel
  induction fuel with
  | zero =>
    intro cs ds hf
    have hcs : cs = [] := List.length_eq_zero.mp (by omega)
    subst hcs
    left
    rw [settleGo_nil_left, sumAmt_nil, totalAmt_nil]
    have h0 : (0 : ℚ) ≤ eps * ds.length := mul_nonneg hepspos.le (Nat.cast_nonneg _)
    simp
    linarith
  | succ n ih =>
    intro cs ds hf
    match cs, ds with
    | [], ds =>
      left
      rw [settleGo_nil_left, sumAmt_nil, totalAmt_nil]
      have h0 : (0 : ℚ) ≤ eps * ds.length := mul_nonneg hepspos.le (Nat.cast_nonneg _)
      simp
      linarith
    | c :: cs, [] =>
      right
      rw [settleGo_nil_right, sumAmt_nil, totalAmt_nil]
      simp
      exact mul_nonneg hepspos.le (by positivity)
    | c :: cs, d :: ds =>
      rw [settleGo_succ_cons, totalAmt_append]
      simp only [List.length_cons] at hf
      have hamtc : min c.2 d.2 ≤ c.2 := min_le_left _ _
      have hamtd : min c.2 d.2 ≤ d.2 := min_le_right _ _
      have hemit : totalAmt (if min c.2 d.2 > eps then
          [(⟨d.1, c.1, min c.2 d.2⟩ : SimplifiedDebt)] else []) =
          if min c.2 d.2 > eps then min c.2 d.2 else 0 := by
        split_ifs
        · simp [totalAmt]
        · rfl
      rw [hemit]
      have hAE : min c.2 d.2 - (if min c.2 d.2 > eps then min c.2 d.2 else 0) ≤ eps := by
        split_ifs with he
        · linarith
        · linarith [not_lt.mp he]
      by_cases h1 : c.2 - min c.2 d.2 < eps
      · have hcE : c.2 - (if min c.2 d.2 > eps then min c.2 d.2 else 0) < 2 * eps := by
          split_ifs with he
          · linarith
          · linarith [not_lt.mp he]
        by_cases h2 : d.2 - min c.2 d.2 < eps
        · have hdE : d.2 - (if min c.2 d.2 > eps then min c.2 d.2 else 0) < 2 * eps := by
            split_ifs with he
            · linarith
            · linarith [not_lt.mp he]
          rw [if_pos h1, if_pos h2]
          rcases ih cs ds (by omega) with hL | hR
          · left
            rw [sumAmt_cons]
            simp only [List.length_cons]
            push_cast
            push_cast at hL
            linarith
          · right
            rw [sumAmt_cons]
            simp only [List.length_cons]
            push_cast
            push_cast at hR
            linarith
        · rw [if_pos h1, if_neg h2]
          rcases ih cs ((d.1, d.2 - min c.2 d.2) :: ds) (by simp only [List.length_cons]; omega)
            with hL | hR
          · left
            rw [sumAmt_cons]
            simp only [List.length_cons] at hL ⊢
            push_cast
            push_cast at hL
            linarith
          · right
            rw [sumAmt_cons] at hR ⊢
            simp only [List.length_cons] at hR ⊢
            push_cast
            push_cast at hR
            linarith
      · by_cases h2 : d.2 - min c.2 d.2 < eps
        · have hdE : d.2 - (if min c.2 d.2 > eps then min c.2 d.2 else 0) < 2 * eps := by
            split_ifs with he
            · linarith
            · linarith [not_lt.mp he]
          rw [if_neg h1, if_pos h2]
          rcases ih ((c.1, c.2 - min c.2 d.2) :: cs) ds (by simp only [List.length_cons]; omega)
            with hL | hR
          · left
            rw [sumAmt_cons] at hL ⊢
            simp only [List.length_cons] at hL ⊢
            push_cast
            push_cast at hL
            linarith
          · right
            rw [sumAmt_cons]
            simp only [List.length_cons] at hR ⊢
            push_cast
            push_cast at hR
            linarith
        · exfalso
          rcases le_total c.2 d.2 with h | h
          · rw [min_eq_left h] at h1
            apply h1
            linarith
          · rw [min_eq_right h] at h2
            apply h2
            linarith

theorem sum_if_key (l : List (String × ℚ)) (hnd : (l.map (fun x => x.1)).Nodup)
    (a : String) (ha : a ∈ l.map (fun x => x.1)) (amt : ℚ) :
    (l.map (fun x => if a = x.1 then amt else 0)).sum = amt := by
  induction l with
  | nil => simp at ha
  | cons x l ih =>
    by_cases hax : a = x.1
    · rw [List.map_cons, List.sum_cons, if_pos hax]
      have hz : (l.map (fun y => if a = y.1 then amt else 0)).sum = 0 := by
        apply List.sum_eq_zero
        intro v hv
        rcases List.mem_map.mp hv with ⟨y, hy, rfl⟩
        rw [if_neg]
        intro hay
        apply (List.nodup_cons.mp hnd).1
        show x.1 ∈ List.map (fun x => x.1) l
        rw [← hax, hay]
        exact List.mem_map.mpr ⟨y, hy, rfl⟩
      rw [hz, add_zero]
    · have ha' : a ∈ l.map (fun x => x.1) := by
        rw [List.map_cons] at ha
        rcases List.mem_cons.mp ha with h | h
        · exact absurd h hax
        · exact h
      rw [List.map_cons, List.sum_cons, if_neg hax,
        ih (List.nodup_cons.mp hnd).2 ha', zero_add]

theorem sum_toAmt (l : List (String × ℚ)) (hnd : (l.map (fun x => x.1)).Nodup) :
    ∀ ts : List SimplifiedDebt, (∀ t ∈ ts, t.«to» ∈ l.map (fun x => x.1)) →
      (l.map (fun x => toAmt x.1 ts)).sum = totalAmt ts := by
  intro ts
  induction ts with
  | nil =>
    intro _
    rw [totalAmt_nil]
    apply List.sum_eq_zero
    intro v hv
    rcases List.mem_map.mp hv with ⟨y, _, rfl⟩
    rfl
  | cons t ts ih =>
    intro hmem
    calc (l.map (fun x => toAmt x.1 (t :: ts))).sum
        = (l.map (fun x =>
            (if t.«to» = x.1 then t.amount else 0) + toAmt x.1 ts)).sum :=
          congrArg List.sum (List.map_congr_left (fun x _ => toAmt_cons x.1 t ts))
      _ = (l.map (fun x => if t.«to» = x.1 then t.amount else 0)).sum +
            (l.map (fun x => toAmt x.1 ts)).sum := sum_map_add l _ _
      _ = t.amount + totalAmt ts := by
          rw [ih (fun t' ht' => hmem t' (List.mem_cons_of_mem _ ht')),
            sum_if_key l hnd t.«to» (hmem t (List.mem_cons_self _ _)) t.amount]
      _ = totalAmt (t :: ts) := (totalAmt_cons t ts).symm

theorem sum_fromAmt (l : List (String × ℚ)) (hnd : (l.map (fun x => x.1)).Nodup) :
    ∀ ts : List SimplifiedDebt, (∀ t ∈ ts, t.«from» ∈ l.map (fun x => x.1)) →
      (l.map (fun x => fromAmt x.1 ts)).sum = totalAmt ts := by
  intro ts
  induction ts with
  | nil =>
    intro _
    rw [totalAmt_nil]
    apply List.sum_eq_zero
    intro v hv
    rcases List.mem_map.mp hv with ⟨y, _, rfl⟩
    rfl
  | cons t ts ih =>
    intro hmem
    calc (l.map (fun x => fromAmt x.1 (t :: ts))).sum
        = (l.map (fun x =>
            (if t.«from» = x.1 then t.amount else 0) + fromAmt x.1 ts)).sum :=
          congrArg List.sum (List.map_congr_left (fun x _ => fromAmt_cons x.1 t ts))
      _ = (l.map (fun x => if t.«from» = x.1 then t.amount else 0)).sum +
            (l.map (fun x => fromAmt x.1 ts)).sum := sum_map_add l _ _
      _ = t.amount + totalAmt ts := by
          rw [ih (fun t' ht' => hmem t' (List.mem_cons_of_mem _ ht')),
            sum_if_key l hnd t.«from» (hmem t (List.mem_cons_self _ _)) t.amount]
      _ = totalAmt (t :: ts) := (totalAmt_cons t ts).symm

theorem sumBal_cons (q : String × Balance) (bs : List (String × Balance)) :
    sumBal (q :: bs) = q.2.balance + sumBal bs := by
  simp [sumBal]

/-- Every entry lands in exactly one of the three partitions, so the sums
recombine to the total net. -/
theorem partition_sum (bs : List (String × Balance)) :
    sumBal bs = sumAmt (creditorsOf bs) - sumAmt (debtorsOf bs) + sumAmt (settledOf bs) := by
  have hepspos : (0 : ℚ) < eps := by norm_num [eps]
  induction bs with
  | nil => simp [sumBal, creditorsOf, debtorsOf, settledOf, sumAmt]
  | cons q bs ih =>
    rw [sumBal_cons, creditorsOf, debtorsOf, settledOf, List.filterMap_cons,
      List.filterMap_cons, List.filterMap_cons]
    by_cases hgt : q.2.balance > eps
    · rw [if_pos hgt, if_neg (by intro h; linarith), if_neg (by intro h; linarith [h.2]),
        sumAmt_cons]
      rw [creditorsOf, debtorsOf, settledOf] at ih
      linarith
    · by_cases hlt : q.2.balance < -eps
      · rw [if_neg hgt, if_pos hlt, if_neg (by intro h; linarith [h.1]), sumAmt_cons]
        rw [creditorsOf, debtorsOf, settledOf] at ih
        dsimp only
        linarith
      · rw [if_neg hgt, if_neg hlt, if_pos ⟨not_lt.mp hlt, not_lt.mp hgt⟩, sumAmt_cons]
        rw [creditorsOf, debtorsOf, settledOf] at ih
        linarith

theorem partition_length (bs : List (String × Balance)) :
    (creditorsOf bs).length + (debtorsOf bs).length + (settledOf bs).length = bs.length := by
  have hepspos : (0 : ℚ) < eps := by norm_num [eps]
  induction bs with
  | nil => simp [creditorsOf, debtorsOf, settledOf]
  | cons q bs ih =>
    rw [creditorsOf, debtorsOf, settledOf, List.filterMap_cons, List.filterMap_cons,
      List.filterMap_cons]
    rw [creditorsOf, debtorsOf, settledOf] at ih
    by_cases hgt : q.2.balance > eps
    · rw [if_pos hgt, if_neg (by intro h; linarith), if_neg (by intro h; linarith [h.2])]
      simp only [List.length_cons]
      omega
    · by_cases hlt : q.2.balance < -eps
      · rw [if_neg hgt, if_pos hlt, if_neg (by intro h; linarith [h.1])]
        simp only [List.length_cons]
        omega
      · rw [if_neg hgt, if_neg hlt, if_pos ⟨not_lt.mp hlt, not_lt.mp hgt⟩]
        simp only [List.length_cons]
        omega

theorem mem_settledOf (bs : List (String × Balance)) (x : String × ℚ)
    (hx : x ∈ settledOf bs) : -eps ≤ x.2 ∧ x.2 ≤ eps := by
  induction bs with
  | nil => simp [settledOf] at hx
  | cons q bs ih =>
    rw [settledOf, List.filterMap_cons] at hx
    split_ifs at hx with hq
    · rcases List.mem_cons.mp hx with h | h
      · rw [h]
        exact hq
      · exact ih (by rwa [settledOf])
    · exact ih (by rwa [settledOf])

theorem sumAmt_abs_le (l : List (String × ℚ)) (h : ∀ x ∈ l, -eps ≤ x.2 ∧ x.2 ≤ eps) :
    -(eps * l.length) ≤ sumAmt l ∧ sumAmt l ≤ eps * l.length := by
  induction l with
  | nil =>
    rw [sumAmt_nil]
    simp
  | cons x l ih =>
    rcases ih (fun y hy => h y (List.mem_cons_of_mem _ hy)) with ⟨h1, h2⟩
    rcases h x (List.mem_cons_self _ _) with ⟨h3, h4⟩
    rw [sumAmt_cons]
    simp only [List.length_cons]
    push_cast
    push_cast at h1 h2
    constructor <;> linarith

/-- The general settlement bound: on a distinct-key balance map whose nets
sum to zero exactly, applying the emitted transfers in the settling
direction leaves every entry's net within ±(2·eps·n) of zero, `n` the
number of entries. -/
theorem settle_total (bs : List (String × Balance)) (hnd : (keysOf bs).Nodup)
    (hsum : sumBal bs = 0) :
    ∀ x ∈ applyAll bs (simplifyDebts bs), |x.2.balance| ≤ 2 * eps * bs.length := by
  have hepspos : (0 : ℚ) < eps := by norm_num [eps]
  have hft : ∀ t ∈ simplifyDebts bs, t.«from» ≠ t.«to» :=
    fun t ht => (simplifyDebts_wf bs hnd t ht).1
  rw [applyAll_eq _ bs hft]
  intro x hx
  rcases List.mem_map.mp hx with ⟨q, hq, rfl⟩
  dsimp only
  have hts : simplifyDebts bs =
      settleGo ((sortDesc (creditorsOf bs)).length + (sortDesc (debtorsOf bs)).length)
        (sortDesc (creditorsOf bs)) (sortDesc (debtorsOf bs)) := by
    rw [simplifyDebts]
  have htsmem : ∀ t ∈ simplifyDebts bs,
      t.«to» ∈ (sortDesc (creditorsOf bs)).map (fun y => y.1) ∧
      t.«from» ∈ (sortDesc (debtorsOf bs)).map (fun y => y.1) ∧ eps < t.amount := by
    intro t ht
    rw [hts] at ht
    exact settleGo_mem _ _ _ t ht
  have hndc : ((sortDesc (creditorsOf bs)).map (fun y => y.1)).Nodup :=
    (((sortDesc_perm (creditorsOf bs)).map (fun y => y.1)).nodup_iff).mpr
      (hnd.sublist (keys_creditorsOf_sublist bs))
  have hndd : ((sortDesc (debtorsOf bs)).map (fun y => y.1)).Nodup :=
    (((sortDesc_perm (debtorsOf bs)).map (fun y => y.1)).nodup_iff).mpr
      (hnd.sublist (keys_debtorsOf_sublist bs))
  have hcsnn : ∀ y ∈ sortDesc (creditorsOf bs), 0 ≤ y.2 := by
    intro y hy
    rcases mem_creditorsOf bs y ((sortDesc_perm _).mem_iff.mp hy) with ⟨b, -, hbgt, hv⟩
    rw [hv]
    linarith
  have hdsnn : ∀ y ∈ sortDesc (debtorsOf bs), 0 ≤ y.2 := by
    intro y hy
    rcases mem_debtorsOf bs y ((sortDesc_perm _).mem_iff.mp hy) with ⟨b, -, hblt, hv⟩
    rw [hv]
    linarith
  have hsc : sumAmt (sortDesc (creditorsOf bs)) = sumAmt (creditorsOf bs) := by
    show ((sortDesc (creditorsOf bs)).map (fun x => x.2)).sum =
      ((creditorsOf bs).map (fun x => x.2)).sum
    exact ((sortDesc_perm (creditorsOf bs)).map (fun x => x.2)).sum_eq
  have hsd : sumAmt (sortDesc (debtorsOf bs)) = sumAmt (debtorsOf bs) := by
    show ((sortDesc (debtorsOf bs)).map (fun x => x.2)).sum =
      ((debtorsOf bs).map (fun x => x.2)).sum
    exact ((sortDesc_perm (debtorsOf bs)).map (fun x => x.2)).sum_eq
  have hlc : (sortDesc (creditorsOf bs)).length = (creditorsOf bs).length :=
    (sortDesc_perm _).length_eq
  have hld : (sortDesc (debtorsOf bs)).length = (debtorsOf bs).length :=
    (sortDesc_perm _).length_eq
  have hlenq : ((creditorsOf bs).length : ℚ) + (debtorsOf bs).length +
      (settledOf bs).length = (bs.length : ℚ) := by
    exact_mod_cast partition_length bs
  have hpart := partition_sum bs
  rcases sumAmt_abs_le (settledOf bs) (mem_settledOf bs) with ⟨hS1, hS2⟩
  have hclen0 : (0 : ℚ) ≤ ((creditorsOf bs).length : ℚ) := Nat.cast_nonneg _
  have hdlen0 : (0 : ℚ) ≤ ((debtorsOf bs).length : ℚ) := Nat.cast_nonneg _
  have hslen0 : (0 : ℚ) ≤ ((settledOf bs).length : ℚ) := Nat.cast_nonneg _
  have hq' : (q.1, q.2) ∈ bs := hq
  have hn1 : (1 : ℚ) ≤ (bs.length : ℚ) := by
    have h0 : 0 < bs.length := List.length_pos.mpr (fun hbs => by rw [hbs] at hq; simp at hq)
    exact_mod_cast h0
  have hnotc : ¬ q.2.balance > eps →
      q.1 ∉ (sortDesc (creditorsOf bs)).map (fun y => y.1) := by
    intro hngt hmem
    have hmem' : q.1 ∈ (creditorsOf bs).map (fun y => y.1) :=
      (((sortDesc_perm (creditorsOf bs)).map (fun y => y.1)).mem_iff).mp hmem
    rcases List.mem_map.mp hmem' with ⟨y, hy, hyk⟩
    rcases mem_creditorsOf bs y hy with ⟨b, hb, hbgt, -⟩
    have hbq : b = q.2 := nodup_key_val_eq bs hnd q.1 b q.2 (by rw [← hyk]; exact hb) hq'
    rw [hbq] at hbgt
    exact hngt hbgt
  have hnotd : ¬ q.2.balance < -eps →
      q.1 ∉ (sortDesc (debtorsOf bs)).map (fun y => y.1) := by
    intro hnlt hmem
    have hmem' : q.1 ∈ (debtorsOf bs).map (fun y => y.1) :=
      (((sortDesc_perm (debtorsOf bs)).map (fun y => y.1)).mem_iff).mp hmem
    rcases List.mem_map.mp hmem' with ⟨y, hy, hyk⟩
    rcases mem_debtorsOf bs y hy with ⟨b, hb, hblt, -⟩
    have hbq : b = q.2 := nodup_key_val_eq bs hnd q.1 b q.2 (by rw [← hyk]; exact hb) hq'
    rw [hbq] at hblt
    exact hnlt hblt
  have hto0 : q.1 ∉ (sortDesc (creditorsOf bs)).map (fun y => y.1) →
      toAmt q.1 (simplifyDebts bs) = 0 := by
    intro hq1
    apply toAmt_eq_zero
    intro t ht heq
    exact hq1 (heq ▸ (htsmem t ht).1)
  have hfrom0 : q.1 ∉ (sortDesc (debtorsOf bs)).map (fun y => y.1) →
      fromAmt q.1 (simplifyDebts bs) = 0 := by
    intro hq1
    apply fromAmt_eq_zero
    intro t ht heq
    exact hq1 (heq ▸ (htsmem t ht).2.1)
  have hCD : sumAmt (creditorsOf bs) - sumAmt (debtorsOf bs) = -sumAmt (settledOf bs) := by
    linarith
  have hec : (0 : ℚ) ≤ eps * ((creditorsOf bs).length : ℚ) := mul_nonneg hepspos.le hclen0
  have hed : (0 : ℚ) ≤ eps * ((debtorsOf bs).length : ℚ) := mul_nonneg hepspos.le hdlen0
  have hes : (0 : ℚ) ≤ eps * ((settledOf bs).length : ℚ) := mul_nonneg hepspos.le hslen0
  have hexp : 2 * eps * (bs.length : ℚ) =
      2 * eps * ((creditorsOf bs).length : ℚ) + 2 * eps * ((debtorsOf bs).length : ℚ) +
        2 * eps * ((settledOf bs).length : ℚ) := by
    rw [← hlenq]
    ring
  have hεn0 : (0 : ℚ) ≤ eps * (bs.length : ℚ) := mul_nonneg hepspos.le (Nat.cast_nonneg _)
  have hb0 : (0 : ℚ) ≤ 2 * eps * (bs.length : ℚ) := by
    rw [hexp]
    linarith
  by_cases hgt : q.2.balance > eps
  · -- creditor entry
    have hqc : (q.1, q.2.balance) ∈ sortDesc (creditorsOf bs) :=
      (sortDesc_perm _).mem_iff.mpr (mem_creditorsOf_of_entry bs q.1 q.2 hq' hgt)
    have hf0 : fromAmt q.1 (simplifyDebts bs) = 0 :=
      hfrom0 (hnotd (by linarith))
    have hto_le : toAmt q.1 (simplifyDebts bs) ≤ q.2.balance := by
      have h := settleGo_toAmt_le
        ((sortDesc (creditorsOf bs)).length + (sortDesc (debtorsOf bs)).length)
        (sortDesc (creditorsOf bs)) (sortDesc (debtorsOf bs)) hndc hcsnn hdsnn
        (q.1, q.2.balance) hqc
      rw [← hts] at h
      exact h
    have hterm : q.2.balance - toAmt q.1 (simplifyDebts bs) ≤
        sumAmt (sortDesc (creditorsOf bs)) - totalAmt (simplifyDebts bs) := by
      have hnn : ∀ v ∈ (sortDesc (creditorsOf bs)).map
          (fun y => y.2 - toAmt y.1 (simplifyDebts bs)), 0 ≤ v := by
        intro v hv
        rcases List.mem_map.mp hv with ⟨y, hy, rfl⟩
        have h := settleGo_toAmt_le
          ((sortDesc (creditorsOf bs)).length + (sortDesc (debtorsOf bs)).length)
          (sortDesc (creditorsOf bs)) (sortDesc (debtorsOf bs)) hndc hcsnn hdsnn y hy
        rw [← hts] at h
        linarith
      have hmemt : q.2.balance - toAmt q.1 (simplifyDebts bs) ∈
          (sortDesc (creditorsOf bs)).map
            (fun y => y.2 - toAmt y.1 (simplifyDebts bs)) :=
        List.mem_map.mpr ⟨(q.1, q.2.balance), hqc, rfl⟩
      have hsl : ((sortDesc (creditorsOf bs)).map
          (fun y => y.2 - toAmt y.1 (simplifyDebts bs))).sum =
          sumAmt (sortDesc (creditorsOf bs)) - totalAmt (simplifyDebts bs) := by
        rw [sum_map_sub, sum_toAmt _ hndc _ (fun t ht => (htsmem t ht).1)]
        rfl
      calc q.2.balance - toAmt q.1 (simplifyDebts bs)
          ≤ ((sortDesc (creditorsOf bs)).map
              (fun y => y.2 - toAmt y.1 (simplifyDebts bs))).sum :=
            List.single_le_sum hnn _ hmemt
        _ = _ := hsl
    have hres : sumAmt (sortDesc (creditorsOf bs)) - totalAmt (simplifyDebts bs) ≤
        2 * eps * bs.length := by
      rcases settleGo_residual
        ((sortDesc (creditorsOf bs)).length + (sortDesc (debtorsOf bs)).length)
        (sortDesc (creditorsOf bs)) (sortDesc (debtorsOf bs)) le_rfl with hL | hR
      · rw [← hts, hlc, hld] at hL
        linarith
      · rw [← hts, hlc, hld] at hR
        rw [hsc]
        rw [hsd] at hR
        linarith
    rw [hf0, add_zero]
    rw [abs_le]
    constructor
    · linarith
    · linarith
  · by_cases hlt : q.2.balance < -eps
    · -- debtor entry
      have hqd : (q.1, -q.2.balance) ∈ sortDesc (debtorsOf bs) :=
        (sortDesc_perm _).mem_iff.mpr (mem_debtorsOf_of_entry bs q.1 q.2 hq' hlt)
      have ht0 : toAmt q.1 (simplifyDebts bs) = 0 := hto0 (hnotc hgt)
      have hfrom_le : fromAmt q.1 (simplifyDebts bs) ≤ -q.2.balance := by
        have h := settleGo_fromAmt_le
          ((sortDesc (creditorsOf bs)).length + (sortDesc (debtorsOf bs)).length)
          (sortDesc (creditorsOf bs)) (sortDesc (debtorsOf bs)) hndd hcsnn hdsnn
          (q.1, -q.2.balance) hqd
        rw [← hts] at h
        exact h
      have hterm : -q.2.balance - fromAmt q.1 (simplifyDebts bs) ≤
          sumAmt (sortDesc (debtorsOf bs)) - totalAmt (simplifyDebts bs) := by
        have hnn : ∀ v ∈ (sortDesc (debtorsOf bs)).map
            (fun y => y.2 - fromAmt y.1 (simplifyDebts bs)), 0 ≤ v := by
          intro v hv
          rcases List.mem_map.mp hv with ⟨y, hy, rfl⟩
          have h := settleGo_fromAmt_le
            ((sortDesc (creditorsOf bs)).length + (sortDesc (debtorsOf bs)).length)
            (sortDesc (creditorsOf bs)) (sortDesc (debtorsOf bs)) hndd hcsnn hdsnn y hy
          rw [← hts] at h
          linarith
        have hmemt : -q.2.balance - fromAmt q.1 (simplifyDebts bs) ∈
            (sortDesc (debtorsOf bs)).map
              (fun y => y.2 - fromAmt y.1 (simplifyDebts bs)) :=
          List.mem_map.mpr ⟨(q.1, -q.2.balance), hqd, rfl⟩
        have hsl : ((sortDesc (debtorsOf bs)).map
            (fun y => y.2 - fromAmt y.1 (simplifyDebts bs))).sum =
            sumAmt (sortDesc (debtorsOf bs)) - totalAmt (simplifyDebts bs) := by
          rw [sum_map_sub, sum_fromAmt _ hndd _ (fun t ht => (htsmem t ht).2.1)]
          rfl
        calc -q.2.balance - fromAmt q.1 (simplifyDebts bs)
            ≤ ((sortDesc (debtorsOf bs)).map
                (fun y => y.2 - fromAmt y.1 (simplifyDebts bs))).sum :=
              List.single_le_sum hnn _ hmemt
          _ = _ := hsl
      have hres : sumAmt (sortDesc (debtorsOf bs)) - totalAmt (simplifyDebts bs) ≤
          2 * eps * bs.length := by
        rcases settleGo_residual
          ((sortDesc (creditorsOf bs)).length + (sortDesc (debtorsOf bs)).length)
          (sortDesc (creditorsOf bs)) (sortDesc (debtorsOf bs)) le_rfl with hL | hR
        · rw [← hts, hlc, hld] at hL
          rw [hsd]
          rw [hsc] at hL
          linarith
        · rw [← hts, hlc, hld] at hR
          linarith
      rw [ht0, sub_zero]
      rw [abs_le]
      constructor
      · linarith
      · linarith
    · -- settled entry: untouched
      have ht0 : toAmt q.1 (simplifyDebts bs) = 0 := hto0 (hnotc hgt)
      have hf0 : fromAmt q.1 (simplifyDebts bs) = 0 := hfrom0 (hnotd hlt)
      rw [ht0, hf0, add_zero, sub_zero]
      have h1 : -eps ≤ q.2.balance := not_lt.mp hlt
      have h2 : q.2.balance ≤ eps := not_lt.mp hgt
      have hεn : eps ≤ eps * (bs.length : ℚ) := by nlinarith
      rw [abs_le]
      constructor
      · linarith
      · linarith

/-! ### Claim C1: settlement completeness -/

/-- **Claim C1, counterexample.**  The claim as frozen is false for two
independent reasons, each exhibited on a concrete input whose payer and
sharers are all roster members (so nets sum to zero).  First, applying the
transfers by the claim's own words — subtracting each transfer's amount
from the `from` participant's net and adding it to the `to` participant's
net — moves nets *away* from zero, because `from` is the debtor paying the
money: after one 60-unit equal three-way expense paid by Alice, the two
20-unit repayments leave Alice's net at 80, far outside ±0.01.  Second,
even applying the transfers in the settling direction (the paying `from`
net rises, the receiving `to` net falls), the ±0.01 bound fails: a
five-person custom-split input leaves participant E's net at
-9/500 = -0.018, with 0.018 > 0.01, because several creditors can each
strand up to 0.01 inside the emission tolerance. -/
theorem claim_C1_counterexample :
    ((∀ e ∈ ([⟨60, "Alice", .equal, ["Alice", "Bob", "Charlie"], none⟩] : List Expense),
        e.paidBy ∈ ["Alice", "Bob", "Charlie"] ∧
        ∀ q ∈ e.splitBetween, q ∈ ["Alice", "Bob", "Charlie"]) ∧
      (lookupBal
        (applyAllAsWritten
          (calculateBalances ["Alice", "Bob", "Charlie"]
            [⟨60, "Alice", .equal, ["Alice", "Bob", "Charlie"], none⟩])
          (simplifyDebts (calculateBalances ["Alice", "Bob", "Charlie"]
            [⟨60, "Alice", .equal, ["Alice", "Bob", "Charlie"], none⟩])))
        "Alice").map (fun b => b.balance) = some 80 ∧
      eps < (80 : ℚ)) ∧
    ((∀ e ∈ ([⟨1009/1000, "A", .custom, ["C", "E"], some [("C", 1), ("E", 9/1000)]⟩,
        ⟨1009/1000, "B", .custom, ["D", "E"], some [("D", 1), ("E", 9/1000)]⟩] :
          List Expense),
        e.paidBy ∈ ["A", "B", "C", "D", "E"] ∧
        ∀ q ∈ e.splitBetween, q ∈ ["A", "B", "C", "D", "E"]) ∧
      (lookupBal
        (applyAll
          (calculateBalances ["A", "B", "C", "D", "E"]
            [⟨1009/1000, "A", .custom, ["C", "E"], some [("C", 1), ("E", 9/1000)]⟩,
             ⟨1009/1000, "B", .custom, ["D", "E"], some [("D", 1), ("E", 9/1000)]⟩])
          (simplifyDebts (calculateBalances ["A", "B", "C", "D", "E"]
            [⟨1009/1000, "A", .custom, ["C", "E"], some [("C", 1), ("E", 9/1000)]⟩,
             ⟨1009/1000, "B", .custom, ["D", "E"], some [("D", 1), ("E", 9/1000)]⟩])))
        "E").map (fun b => b.balance) = some (-(9/500)) ∧
      eps < (9/500 : ℚ)) := by
  refine ⟨⟨by simp, ?_, by norm_num [eps]⟩, ⟨by simp, ?_, by norm_num [eps]⟩⟩
  · have h1 : calculateBalances ["Alice", "Bob", "Charlie"]
        [⟨60, "Alice", .equal, ["Alice", "Bob", "Charlie"], none⟩] =
        [("Alice", ⟨60, 20, 40⟩), ("Bob", ⟨0, 20, -20⟩), ("Charlie", ⟨0, 20, -20⟩)] := by
      simp [calculateBalances, initBalances, applyExpense, addPaid, addOwes, updEntry]
      norm_num
    have h2 : simplifyDebts
        [("Alice", (⟨60, 20, 40⟩ : Balance)), ("Bob", ⟨0, 20, -20⟩),
         ("Charlie", ⟨0, 20, -20⟩)] =
        [⟨"Bob", "Alice", 20⟩, ⟨"Charlie", "Alice", 20⟩] := by
      simp [simplifyDebts, creditorsOf, debtorsOf, sortDesc, insertDesc]
      norm_num [eps, settleGo, min_def, insertDesc, List.filterMap_cons,
        List.filterMap_nil, List.foldl_cons, List.foldl_nil]
    have h3 : applyTransferAsWritten
        [("Alice", (⟨60, 20, 40⟩ : Balance)), ("Bob", ⟨0, 20, -20⟩),
         ("Charlie", ⟨0, 20, -20⟩)] ⟨"Bob", "Alice", 20⟩ =
        [("Alice", ⟨60, 20, 60⟩), ("Bob", ⟨0, 20, -40⟩), ("Charlie", ⟨0, 20, -20⟩)] := by
      simp [applyTransferAsWritten]
      try norm_num
    have h4 : applyTransferAsWritten
        [("Alice", (⟨60, 20, 60⟩ : Balance)), ("Bob", ⟨0, 20, -40⟩),
         ("Charlie", ⟨0, 20, -20⟩)] ⟨"Charlie", "Alice", 20⟩ =
        [("Alice", ⟨60, 20, 80⟩), ("Bob", ⟨0, 20, -40⟩), ("Charlie", ⟨0, 20, -40⟩)] := by
      simp [applyTransferAsWritten]
      try norm_num
    rw [h1, h2]
    show (lookupBal (applyTransferAsWritten (applyTransferAsWritten _ _) _)
      "Alice").map _ = _
    rw [h3, h4]
    rfl
  · have h1 : calculateBalances ["A", "B", "C", "D", "E"]
        [⟨1009/1000, "A", .custom, ["C", "E"], some [("C", 1), ("E", 9/1000)]⟩,
         ⟨1009/1000, "B", .custom, ["D", "E"], some [("D", 1), ("E", 9/1000)]⟩] =
        [("A", ⟨1009/1000, 0, 1009/1000⟩), ("B", ⟨1009/1000, 0, 1009/1000⟩),
         ("C", ⟨0, 1, -1⟩), ("D", ⟨0, 1, -1⟩), ("E", ⟨0, 9/500, -(9/500)⟩)] := by
      simp [calculateBalances, initBalances, applyExpense, addPaid, addOwes, updEntry,
        lookupShare]
      norm_num
    have h2 : simplifyDebts
        [("A", (⟨1009/1000, 0, 1009/1000⟩ : Balance)), ("B", ⟨1009/1000, 0, 1009/1000⟩),
         ("C", ⟨0, 1, -1⟩), ("D", ⟨0, 1, -1⟩), ("E", ⟨0, 9/500, -(9/500)⟩)] =
        [⟨"C", "A", 1⟩, ⟨"D", "B", 1⟩] := by
      simp [simplifyDebts, creditorsOf, debtorsOf, sortDesc, insertDesc]
      norm_num [eps, settleGo, min_def, insertDesc, List.filterMap_cons,
        List.filterMap_nil, List.foldl_cons, List.foldl_nil]
    have h3 : applyTransfer
        [("A", (⟨1009/1000, 0, 1009/1000⟩ : Balance)), ("B", ⟨1009/1000, 0, 1009/1000⟩),
         ("C", ⟨0, 1, -1⟩), ("D", ⟨0, 1, -1⟩), ("E", ⟨0, 9/500, -(9/500)⟩)]
        ⟨"C", "A", 1⟩ =
        [("A", ⟨1009/1000, 0, 9/1000⟩), ("B", ⟨1009/1000, 0, 1009/1000⟩),
         ("C", ⟨0, 1, 0⟩), ("D", ⟨0, 1, -1⟩), ("E", ⟨0, 9/500, -(9/500)⟩)] := by
      simp [applyTransfer]
      try norm_num
    have h4 : applyTransfer
        [("A", (⟨1009/1000, 0, 9/1000⟩ : Balance)), ("B", ⟨1009/1000, 0, 1009/1000⟩),
         ("C", ⟨0, 1, 0⟩), ("D", ⟨0, 1, -1⟩), ("E", ⟨0, 9/500, -(9/500)⟩)]
        ⟨"D", "B", 1⟩ =
        [("A", ⟨1009/1000, 0, 9/1000⟩), ("B", ⟨1009/1000, 0, 9/1000⟩),
         ("C", ⟨0, 1, 0⟩), ("D", ⟨0, 1, 0⟩), ("E", ⟨0, 9/500, -(9/500)⟩)] := by
      simp [applyTransfer]
      try norm_num
    rw [h1, h2]
    show (lookupBal (applyTransfer (applyTransfer _ _) _) "E").map _ = _
    rw [h3, h4]
    rfl

/-- **Claim C1** (settlement completeness), amended.  Read the application
of a transfer in the settling direction — the paying `from` participant's
net rises by `amount`, the receiving `to` participant's net falls by it —
and widen the per-participant tolerance from ±0.01 to ±(2·0.01·n) for a
roster of n members; both changes are forced by `claim_C1_counterexample`.
Then the property holds: for a roster of distinct names whose expenses are
attributed (payer and sharers on the roster, equal splits nonempty, custom
shares summing over `splitBetween` to the amount), applying every transfer
of `simplifyDebts` in the order returned to the `calculateBalances` map
leaves every participant's net within 2·0.01·n of zero. -/
theorem claim_C1_settlement (people : List String) (es : List Expense)
    (hnd : people.Nodup)
    (hmem : ∀ e ∈ es, e.paidBy ∈ people ∧ ∀ q ∈ e.splitBetween, q ∈ people)
    (heq : ∀ e ∈ es, e.splitType = .equal → e.splitBetween ≠ [])
    (hcu : ∀ e ∈ es, e.splitType = .custom →
      ∃ ca, e.customAmounts = some ca ∧
        (e.splitBetween.map (fun p => (lookupShare ca p).getD 0)).sum = e.amount) :
    ∀ x ∈ applyAll (calculateBalances people es)
        (simplifyDebts (calculateBalances people es)),
      |x.2.balance| ≤ 2 * eps * people.length := by
  have hk := keysOf_calculateBalances people es hnd
  have hlen : ((calculateBalances people es).length : ℚ) = (people.length : ℚ) := by
    have h := congrArg List.length hk
    simp only [keysOf, List.length_map] at h
    exact_mod_cast h
  have hmain := settle_total (calculateBalances people es)
    (by rw [hk]; exact hnd)
    (sumBal_eq_zero people es hnd hmem heq hcu)
  intro x hx
  calc |x.2.balance| ≤ 2 * eps * (calculateBalances people es).length := hmain x hx
    _ = 2 * eps * people.length := by rw [hlen]

theorem claim_C1_settlement_witness :
    (["Alice", "Bob", "Charlie"] : List String).Nodup ∧
    ∀ x ∈ applyAll
        (calculateBalances ["Alice", "Bob", "Charlie"]
          [⟨60, "Alice", .equal, ["Alice", "Bob", "Charlie"], none⟩])
        (simplifyDebts (calculateBalances ["Alice", "Bob", "Charlie"]
          [⟨60, "Alice", .equal, ["Alice", "Bob", "Charlie"], none⟩])),
      |x.2.balance| ≤
        2 * eps * (["Alice", "Bob", "Charlie"] : List String).length :=
  ⟨by decide,
    claim_C1_settlement ["Alice", "Bob", "Charlie"]
      [⟨60, "Alice", .equal, ["Alice", "Bob", "Charlie"], none⟩]
      (by decide) (by simp) (by simp) (by simp)⟩

end ExpenseSplitter
